import Mathlib

/-!
# Verification of the `mm_dlink_heap.c` dynamic storage allocator

Shallow embedding of `src/src/mm_dlink_heap.c`.  The heap is a run of
`HeadFoot` records ("HF units"); we model memory as a total function from
unit indices (`Int`, unit 0 at the heap base) to `HF` records.  Machine
pointers are modelled as `Int` byte addresses (`NULL` is `0`, the heap
starts at `heapBase`).  `size_t` arithmetic is `Nat` with explicit
`% 2 ^ 64` where the C computation can wrap, and the `size_of_blk`
bitfield (31 bits on x86-64) truncates on write.  Fallible operations
return `Option`; unbounded C loops take an explicit fuel argument and
answer `none`/their accumulator when it runs out.
-/

namespace MMHeap

/-- `sizeof(HeadFoot)` on the modelled platform (x86-64): two 8-byte
pointers plus one 8-byte word carrying the `size_of_blk`/`alloc_or_not`
bitfields. -/
def sizeofHF : Nat := 24

/-- `static const size_t blocks = 4;` — header + footer + prevptr + nextptr. -/
def blocks : Nat := 4

/-- Width in bits of the `size_of_blk` bitfield: `4 * sizeof(size_t) - 1 = 31`. -/
def sizeBits : Nat := 31

/-- `size_t` arithmetic wraps modulo `2 ^ 64`. -/
def szt (x : Nat) : Nat := x % 2 ^ 64

/-- `size_t` subtraction `a - b`, wrapping modulo `2 ^ 64` (operands below `2 ^ 64`). -/
def sztSub (a b : Nat) : Nat := (a + 2 ^ 64 - b) % 2 ^ 64

/-- Byte address of the first heap byte (`mem_heap_lo()`); an arbitrary
positive address divisible by `sizeofHF` and by `sizeof(max_align_t)`. -/
def heapBase : Int := 9600

/-- `sysconf(_SC_PAGESIZE)` on the modelled platform. -/
def pageSize : Nat := 4096

/-- `sizeof(max_align_t)` on the modelled platform (glibc x86-64). -/
def sizeofMaxAlign : Nat := 32

/-- `errno` value for out-of-memory. -/
def ENOMEM : Nat := 12

/-- `errno` value for bad address. -/
def EFAULT : Nat := 14

/-- The `union HeadFoot` record (a union of a single struct, so the four
fields occupy distinct storage): free-list links, block size in HF units,
and the allocated bit. -/
structure HF where
  previous_free : Int
  next_free : Int
  size_of_blk : Nat
  alloc_or_not : Nat
deriving DecidableEq

/-- Contents of memory the allocator never wrote (indeterminate in C; the
model fixes one value so that runs that read such cells stay defined). -/
def junkHF : HF := ⟨0, 0, 0, 1⟩

/-- Allocator state: memory (unit-indexed, total), the committed heap size
in bytes, the provider's growth limit in bytes, the `freelist` static
(`none` = `NULL`), and `errno`. -/
structure MMState where
  mem : Int → HF
  heapBytes : Nat
  limitBytes : Nat
  freelist : Option Int
  errno : Nat

/-- Write the `size_of_blk` bitfield at unit `i` (truncates to 31 bits). -/
def wrSize (m : Int → HF) (i : Int) (v : Nat) : Int → HF :=
  fun j => if j = i then { m i with size_of_blk := v % 2 ^ sizeBits } else m j

/-- Write the `alloc_or_not` bitfield at unit `i` (truncates to 1 bit). -/
def wrAlloc (m : Int → HF) (i : Int) (v : Nat) : Int → HF :=
  fun j => if j = i then { m i with alloc_or_not := v % 2 } else m j

/-- Write the `previous_free` pointer at unit `i`. -/
def wrPrev (m : Int → HF) (i : Int) (v : Int) : Int → HF :=
  fun j => if j = i then { m i with previous_free := v } else m j

/-- Write the `next_free` pointer at unit `i`. -/
def wrNext (m : Int → HF) (i : Int) (v : Int) : Int → HF :=
  fun j => if j = i then { m i with next_free := v } else m j

/-- Byte address of heap unit `u`. -/
def addrOfUnit (u : Int) : Int := heapBase + sizeofHF * u

/-- Heap unit containing byte address `a` (pointer cast to `HeadFoot *`). -/
def unitOfAddr (a : Int) : Int := (a - heapBase) / sizeofHF

/-- Modelled from the spec: the arena provider's `heap_lo()` — the heap's
first byte (the provider `memlib` is not part of `src/`). -/
def mem_heap_lo : Int := heapBase

/-- Modelled from the spec: the arena provider's `heap_hi()` — the heap's
last committed byte. -/
def mem_heap_hi (s : MMState) : Int := heapBase + (s.heapBytes : Int) - 1

/-- Modelled from the spec: `sbrk(bytes)` extends the arena by `bytes` and
returns the old break address, or refuses (result `-1`, heap unchanged)
when the growth limit would be exceeded. -/
def mem_sbrk (s : MMState) (incr : Nat) : MMState × Int :=
  if s.heapBytes + incr ≤ s.limitBytes then
    ({ s with heapBytes := s.heapBytes + incr }, heapBase + (s.heapBytes : Int))
  else (s, -1)

/-- Modelled from the spec: `init()` prepares an empty arena. -/
def mem_init (s : MMState) : MMState := { s with heapBytes := 0 }

/-- Modelled from the spec: `reset_brk()` rewinds the break to the heap
base (memory contents are not erased). -/
def mem_reset_brk (s : MMState) : MMState := { s with heapBytes := 0 }

/-- Modelled from the spec: `deinit()` releases the arena. -/
def mem_deinit (s : MMState) : MMState := { s with heapBytes := 0 }

/-- The `freelist` static as a unit index; internal routines are reached
only with an initialized free list (dereferencing `NULL` is UB in C). -/
def flUnit (s : MMState) : Int := s.freelist.getD 0

/-- `restart()`: install the leading size-4 allocated sentinel (which is
also the initial circular free list) and the trailing one-unit sentinel.
The source compares `mem_sbrk`'s result against `NULL`, but the provider
reports failure as `(void *) -1`, so the early return is never taken. -/
def restart (s : MMState) : MMState :=
  match mem_sbrk s ((blocks + 1) * sizeofHF) with
  | (s1, r) =>
    if r = 0 then s1 else
    let fl : Int := unitOfAddr mem_heap_lo
    let m := wrSize s1.mem (fl + (blocks : Int) - 1) blocks
    let m := wrSize m fl blocks
    let m := wrAlloc m (fl + (blocks : Int) - 1) 1
    let m := wrAlloc m fl 1
    let m := wrNext m fl fl
    let m := wrPrev m fl fl
    let lastblck := fl + (blocks : Int)
    let m := wrAlloc m lastblck 1
    let m := wrSize m lastblck 1
    { s1 with mem := m, freelist := some fl }

/-- `mm_init()`. -/
def mm_init (s : MMState) : MMState :=
  if s.freelist = none then restart (mem_init s) else s

/-- `mm_reset()`. -/
def mm_reset (s : MMState) : MMState :=
  if s.freelist = none then mm_init s else restart (mem_reset_brk s)

/-- `mm_deinit()`. -/
def mm_deinit (s : MMState) : MMState :=
  { mem_deinit s with freelist := none }

/-- `takefromlist(head)`: unlink `head` from the circular free list. -/
def takefromlist (s : MMState) (head : Int) : MMState :=
  let after := (s.mem head).next_free
  let before := (s.mem head).previous_free
  let m := wrNext s.mem before after
  let m := wrPrev m after before
  { s with mem := m }

/-- `conv_bytes(headchunk)`: HF units to bytes (`size_t` multiply, wraps). -/
def conv_bytes (headchunk : Nat) : Nat := szt (headchunk * sizeofHF)

/-- `headchunksize(bytechunks)`: bytes to HF units, rounding up (the
`size_t` sum `bytechunks + sizeof(HeadFoot) - 1` wraps). -/
def headchunksize (bytechunks : Nat) : Nat :=
  szt (bytechunks + sizeofHF - 1) / sizeofHF

/-- `returnfreeblocktolist(blockval)`: mark the block free, coalesce with a
free physical predecessor (already on the list) or else insert after the
anchor, move the anchor to the block, then absorb a free physical
successor. -/
def returnfreeblocktolist (s : MMState) (blockval : Int) : MMState :=
  let headch := (s.mem blockval).size_of_blk
  let m := wrAlloc s.mem (blockval + (headch : Int) - 1) 0
  let m := wrAlloc m blockval 0
  let step : Int × Nat × (Int → HF) :=
    if (m (blockval - 1)).alloc_or_not = 0 then
      let bv := blockval - ((m (blockval - 1)).size_of_blk : Int)
      let hc := headch + (m bv).size_of_blk
      let m2 := wrSize m (bv + (hc : Int) - 1) hc
      let m2 := wrSize m2 bv hc
      (bv, hc, m2)
    else
      let fl := flUnit s
      let after := (m fl).next_free
      let m2 := wrPrev m blockval fl
      let m2 := wrNext m2 blockval after
      let m2 := wrPrev m2 after blockval
      let m2 := wrNext m2 fl blockval
      (blockval, headch, m2)
  match step with
  | (bv, hc, m2) =>
    let s2 : MMState := { s with mem := m2, freelist := some bv }
    if (s2.mem (bv + (hc : Int))).alloc_or_not = 0 then
      let s3 := takefromlist s2 (bv + (hc : Int))
      let hc2 := hc + (s3.mem (bv + (hc : Int))).size_of_blk
      let m3 := wrSize s3.mem (bv + (hc2 : Int) - 1) hc2
      let m3 := wrSize m3 bv hc2
      { s3 with mem := m3 }
    else s2

/-- `increaseheapsize(heads)`: grow the arena by at least a page, lay a new
free block over the old trailing sentinel, install a fresh trailing
sentinel, and release the new block to the free list. -/
def increaseheapsize (s : MMState) (heads0 : Nat) : MMState × Option Int :=
  let allocations := headchunksize pageSize
  let heads := if heads0 < allocations then allocations else heads0
  let bytecounts := conv_bytes heads
  match mem_sbrk s bytecounts with
  | (s1, incr) =>
    if incr = -1 then (s, none)
    else
      let blck := unitOfAddr incr - 1
      let m := wrSize s1.mem (blck + (heads : Int) - 1) heads
      let m := wrSize m blck heads
      let m := wrAlloc m (blck + (heads : Int) - 1) 0
      let m := wrAlloc m blck 0
      let m := wrAlloc m (blck + (heads : Int)) 1
      let m := wrSize m (blck + (heads : Int)) 1
      let s2 := returnfreeblocktolist { s1 with mem := m } blck
      (s2, some (flUnit s2))

/-- The block-consumption step shared verbatim by the two placement
strategies (`mm_dlink_heap.c` lines 256–280 and 328–352): consume the
whole block when `headc + blocks > size`, otherwise split, keeping the
low-address remainder (links untouched) and carving the allocated piece
from the high-address end. -/
def serve_block (s : MMState) (blck : Int) (headc : Nat) : MMState × Int :=
  if headc + blocks > (s.mem blck).size_of_blk then
    let s1 := if some blck = s.freelist
              then { s with freelist := some ((s.mem blck).previous_free) }
              else s
    let s2 := takefromlist s1 blck
    let alc := (s2.mem blck).size_of_blk
    let m := wrAlloc s2.mem (blck + (alc : Int) - 1) 1
    let m := wrAlloc m blck 1
    ({ s2 with mem := m }, blck)
  else
    let alc := (s.mem blck).size_of_blk - headc
    let m := wrSize s.mem blck ((s.mem blck).size_of_blk - headc)
    let m := wrSize m (blck + (alc : Int) - 1) ((m blck).size_of_blk)
    let m := wrSize m (blck + (alc : Int) + (headc : Int) - 1) headc
    let m := wrSize m (blck + (alc : Int)) headc
    let m := wrAlloc m (blck + (alc : Int) + (headc : Int) - 1) 1
    let m := wrAlloc m (blck + (alc : Int)) 1
    ({ s with mem := m }, blck + (alc : Int))

/-- The search loop shared by both placement strategies: scan along
`next_free`, serve the first fitting free block, and grow the arena when
the scan wraps around to `freelist`.  `fuel` bounds the unbounded C loop;
exhaustion answers `none`. -/
def ff_loop : Nat → MMState → Int → Nat → MMState × Option Int
  | 0, s, _, _ => (s, none)
  | fuel + 1, s, blck, headc =>
    if headc ≤ (s.mem blck).size_of_blk ∧ (s.mem blck).alloc_or_not = 0 then
      match serve_block s blck headc with
      | (s1, p) => (s1, some p)
    else
      let b2 := (s.mem blck).next_free
      if some b2 = s.freelist then
        match increaseheapsize s headc with
        | (s1, none) => (s1, none)
        | (s1, some nb) => ff_loop fuel s1 nb headc
      else ff_loop fuel s b2 headc

/-- `pick_free_block_from_list_first_fit(headc)`. -/
def pick_free_block_from_list_first_fit (fuel : Nat) (s : MMState) (headc : Nat) :
    MMState × Option Int :=
  ff_loop fuel s (flUnit s) headc

/-- The best-fit `do … while (temp != freelist)` scan: `best_fit` starts at
the anchor and is replaced by a fitting free block only when its size is
strictly below the current candidate's. -/
def bf_scan (s : MMState) (headc : Nat) (f : Int) : Nat → Int → Int → Int
  | 0, _, best => best
  | fuel + 1, temp, best =>
    let best2 :=
      if headc ≤ (s.mem temp).size_of_blk ∧ (s.mem temp).alloc_or_not = 0
         ∧ (s.mem temp).size_of_blk < (s.mem best).size_of_blk
      then temp else best
    let t2 := (s.mem temp).next_free
    if t2 = f then best2 else bf_scan s headc f fuel t2 best2

/-- `pick_free_block_from_list_best_fit(headc)`: one scan pass computes
`best_fit` (when `freelist` is `NULL` the function returns `NULL`), then
the shared search loop runs starting from `best_fit`. -/
def pick_free_block_from_list_best_fit (fuel : Nat) (s : MMState) (headc : Nat) :
    MMState × Option Int :=
  match s.freelist with
  | none => (s, none)
  | some f =>
    let best := bf_scan s headc f fuel f f
    ff_loop fuel s best headc

/-- The request size `mm_malloc` actually places: payload units plus header
and footer, floored at the minimum block size `blocks`. -/
def mallocChunks (bytechunks : Nat) : Nat :=
  let chunks := headchunksize bytechunks + 2
  if blocks > chunks then blocks else chunks

/-- `mm_malloc(bytechunks)`: auto-initialize, round up, place first-fit;
on failure set `errno = ENOMEM` and return `NULL`, otherwise return the
payload address `headptr + 1`. -/
def mm_malloc (fuel : Nat) (s : MMState) (bytechunks : Nat) : MMState × Option Int :=
  let s0 := if s.freelist = none then mm_init s else s
  match pick_free_block_from_list_first_fit fuel s0 (mallocChunks bytechunks) with
  | (s1, none) => ({ s1 with errno := ENOMEM }, none)
  | (s1, some h) => (s1, some (addrOfUnit (h + 1)))

/-- The fast-path gate of `allocatedblock`: the source writes
`(uintptr_t)allocated & (sizeof(max_align_t)-1) == 0`, and `==` binds
tighter than `&`, so the expression is `allocated & ((sizeof(max_align_t)-1) == 0)`. -/
def fast_path_guard (p : Int) : Bool :=
  decide (p.toNat &&& (if sizeofMaxAlign - 1 = 0 then 1 else 0) ≠ 0)

/-- The slow-path walk of `allocatedblock`: step from header to header
(`proceed = blck_list + blck_list->size_of_blk`) while the next header's
address is still at or below `allocated`. -/
def ab_walk (s : MMState) (p : Int) : Nat → Int → Int
  | 0, bl => bl
  | fuel + 1, bl =>
    let proceed := bl + ((s.mem bl).size_of_blk : Int)
    if addrOfUnit proceed ≤ p then ab_walk s p fuel proceed else bl

/-- `allocatedblock(allocated)`: bounds and `NULL` checks, the (dead)
aligned fast path, then the slow-path walk from the leading sentinel,
accepting the landing block iff its `alloc_or_not` bit is set. -/
def allocatedblock (fuel : Nat) (s : MMState) (p : Int) : Option Int :=
  if p ≤ mem_heap_lo ∨ p ≥ mem_heap_hi s ∨ p = 0 then none
  else
    let fast : Option Int :=
      if fast_path_guard p then
        let c := unitOfAddr p - 1
        if (s.mem c).alloc_or_not = 1 then
          let headvals := (s.mem c).size_of_blk
          if blocks ≤ headvals then
            if (s.mem c).size_of_blk = (s.mem (c + (headvals : Int) - 1)).size_of_blk
               ∨ (s.mem c).alloc_or_not = (s.mem (c + (headvals : Int) - 1)).alloc_or_not
            then some c else none
          else none
        else none
      else none
    match fast with
    | some c => some c
    | none =>
      let bl := ab_walk s p fuel (unitOfAddr mem_heap_lo)
      if (s.mem bl).alloc_or_not = 1 then some bl else none

/-- `memcpy(newloc, allocatedptr, conv_bytes(copysize))` at HF-unit
granularity: copy `count` units from `src` to `dst`. -/
def copyCells (m : Int → HF) (src dst : Int) (count : Nat) : Int → HF :=
  fun j => if dst ≤ j ∧ j < dst + (count : Int) then m (src + (j - dst)) else m j

/-- `mm_realloc(allocatedptr, bytechunks)`. -/
def mm_realloc (fuel : Nat) (s : MMState) (p : Int) (bytechunks : Nat) :
    MMState × Option Int :=
  if p = 0 then mm_malloc fuel s bytechunks
  else
    match allocatedblock fuel s p with
    | none => ({ s with errno := EFAULT }, none)
    | some b =>
      let hchunks := headchunksize bytechunks + 2
      let insize := (s.mem b).size_of_blk
      if hchunks ≤ insize then (s, some p)
      else
        match pick_free_block_from_list_first_fit fuel s hchunks with
        | (s1, none) => (s1, none)
        | (s1, some rb) =>
          let copysize := sztSub insize 2
          let m := copyCells s1.mem (unitOfAddr p) (rb + 1) copysize
          let s2 := returnfreeblocktolist { s1 with mem := m } b
          (s2, some (addrOfUnit (rb + 1)))

/-- `mm_free(alloc)`. -/
def mm_free (fuel : Nat) (s : MMState) (p : Int) : MMState :=
  if p ≠ 0 then
    match allocatedblock fuel s p with
    | none => { s with errno := EFAULT }
    | some b => returnfreeblocktolist s b
  else s

/-! ## Claim-support definitions -/

/-- Decidable check of the boundary-tag structure: walk the arena from
unit 0 block by block; every block must lie inside the arena, have a
nonzero size, and its footer must repeat the header's `size_of_blk` and
`alloc_or_not` (the invariant of spec §3, used by claim C1). -/
def parseFrom (s : MMState) (N : Nat) : Nat → Nat → Bool
  | 0, _ => false
  | fuel + 1, i =>
    if i = N then true
    else
      let sz := (s.mem (i : Int)).size_of_blk
      if sz = 0 ∨ N < i + sz then false
      else if (s.mem ((i : Int) + (sz : Int) - 1)).size_of_blk = sz
        ∧ (s.mem ((i : Int) + (sz : Int) - 1)).alloc_or_not = (s.mem (i : Int)).alloc_or_not
      then parseFrom s N fuel (i + sz) else false

/-- Every block of the arena has agreeing header and footer (and the arena
tiles into blocks at all). -/
def hfAgree (s : MMState) : Bool :=
  parseFrom s (s.heapBytes / sizeofHF) (s.heapBytes / sizeofHF + 1) 0

/-- A process state before `mm_init`: empty arena with the given growth
limit, `freelist = NULL`, memory all indeterminate. -/
def initialState (limit : Nat) : MMState :=
  { mem := fun _ => junkHF, heapBytes := 0, limitBytes := limit, freelist := none,
    errno := 0 }

/-- Build a memory from an association list of unit contents (unlisted
units hold `junkHF`). -/
def mkMem (l : List (Int × HF)) : Int → HF :=
  fun i => (l.lookup i).getD junkHF

/-- A well-formed arena used as a concrete test state: leading sentinel,
a free anchor block F1 of size 4 at unit 4, an allocated block at 8, a
free block F2 of size 20 at unit 13, an allocated block at 33, a free
block F3 of size 6 at unit 38, trailing sentinel at 44.  The free list is
the ring 4 → 13 → 38 → 0 → 4 with the anchor at F1. -/
def cxMem : Int → HF := mkMem [
  (0,  ⟨38, 4, 4, 1⟩), (3, ⟨0, 0, 4, 1⟩),
  (4,  ⟨0, 13, 4, 0⟩), (7, ⟨0, 0, 4, 0⟩),
  (8,  ⟨0, 0, 5, 1⟩), (12, ⟨0, 0, 5, 1⟩),
  (13, ⟨4, 38, 20, 0⟩), (32, ⟨0, 0, 20, 0⟩),
  (33, ⟨0, 0, 5, 1⟩), (37, ⟨0, 0, 5, 1⟩),
  (38, ⟨13, 0, 6, 0⟩), (43, ⟨0, 0, 6, 0⟩),
  (44, ⟨0, 0, 1, 1⟩)]

/-- The test state over `cxMem` (arena of 45 units, growth refused). -/
def cxS : MMState :=
  { mem := cxMem, heapBytes := 1080, limitBytes := 1080, freelist := some 4, errno := 0 }

/-- `ws` lists the nodes visited after `a` when following `next_free`
links, the walk ending when the link reaches `t`. -/
def chainNext (s : MMState) : Int → List Int → Int → Prop
  | a, [], t => (s.mem a).next_free = t
  | a, x :: xs, t => (s.mem a).next_free = x ∧ chainNext s x xs t

/-- One candidate-update step of the best-fit scan: a node replaces the
current candidate only when it fits, is free, and is strictly smaller
than the current candidate. -/
def bf_step (s : MMState) (headc : Nat) (best t : Int) : Int :=
  if headc ≤ (s.mem t).size_of_blk ∧ (s.mem t).alloc_or_not = 0
     ∧ (s.mem t).size_of_blk < (s.mem best).size_of_blk
  then t else best

/-- The page-rounded unit count `increaseheapsize` actually requests. -/
def growHeads (heads0 : Nat) : Nat :=
  if heads0 < headchunksize pageSize then headchunksize pageSize else heads0

/-- Fresh heap with a growth limit that forbids any arena growth. -/
def s120 : MMState := mm_init (initialState 120)

/-- Fresh heap with an ample growth limit. -/
def sBig : MMState := mm_init (initialState 100000)

/-- `sBig` after one 64-byte allocation (payload at address 13704,
header at unit 170; the free remainder block sits at unit 4). -/
def sA : MMState := (mm_malloc 50 sBig 64).1

/-- A full arena (limit equal to the committed 4224 bytes) holding one
64-byte allocation with payload address 13704. -/
def sW : MMState := (mm_malloc 50 (mm_init (initialState 4224)) 64).1


/-- The overflow run of claim C1: a fresh 152-byte-limit heap, then a
huge request that wraps the growth byte count. -/
def c1pre : MMState := mm_init (initialState 152)

/-- The result of `mm_malloc (2 ^ 64 - 24)` on `c1pre`. -/
def c1run : MMState × Option Int := mm_malloc 20 c1pre (2 ^ 64 - 24)

/-- The run of claim C6: freeing a pointer one unit inside the leading
sentinel of a fresh heap. -/
def c6run : MMState := mm_free 50 sBig (heapBase + 24)

/-- Claim C9 scenario, first allocation (`a`). -/
def c9a : MMState × Option Int := mm_malloc 50 sBig 64

/-- Claim C9 scenario, second allocation (`b`). -/
def c9b : MMState × Option Int := mm_malloc 50 c9a.1 64

/-- Claim C9 scenario, after `release a`. -/
def c9f : MMState := mm_free 50 c9b.1 (c9a.2.getD 0)

/-- Claim C9 scenario, third allocation (`c`). -/
def c9c : MMState × Option Int := mm_malloc 50 c9f 64

/-- Claim C10 run: a zero-byte allocation on a fresh heap. -/
def c10run : MMState × Option Int := mm_malloc 50 sBig 0

/-- The first half of `returnfreeblocktolist` (through the lower-neighbour
merge / free-list insertion), factored out for the invariant proofs: yields
the resulting block start, its size in units, and the written memory. -/
def rfbtl_lower (s : MMState) (blockval : Int) : Int × Nat × (Int → HF) :=
  let headch := (s.mem blockval).size_of_blk
  let m := wrAlloc s.mem (blockval + (headch : Int) - 1) 0
  let m := wrAlloc m blockval 0
  if (m (blockval - 1)).alloc_or_not = 0 then
    let bv := blockval - ((m (blockval - 1)).size_of_blk : Int)
    let hc := headch + (m bv).size_of_blk
    let m2 := wrSize m (bv + (hc : Int) - 1) hc
    let m2 := wrSize m2 bv hc
    (bv, hc, m2)
  else
    let fl := flUnit s
    let after := (m fl).next_free
    let m2 := wrPrev m blockval fl
    let m2 := wrNext m2 blockval after
    let m2 := wrPrev m2 after blockval
    let m2 := wrNext m2 fl blockval
    (blockval, headch, m2)

/-- The second half of `returnfreeblocktolist` (the upper-neighbour merge),
factored out for the invariant proofs. -/
def rfbtl_upper (s2 : MMState) (bv : Int) (hc : Nat) : MMState :=
  if (s2.mem (bv + (hc : Int))).alloc_or_not = 0 then
    let s3 := takefromlist s2 (bv + (hc : Int))
    let hc2 := hc + (s3.mem (bv + (hc : Int))).size_of_blk
    let m3 := wrSize s3.mem (bv + (hc2 : Int) - 1) hc2
    let m3 := wrSize m3 bv hc2
    { s3 with mem := m3 }
  else s2

/-! ## Abstract block layout (for the coalescing invariant, claim C3) -/

/-- Abstract block: size in HF units and an allocated flag. -/
structure Blk where
  bsize : Nat
  balloc : Bool
deriving DecidableEq

/-- Total size of a block list, in HF units. -/
def totalSize (bs : List Blk) : Nat := (bs.map Blk.bsize).sum

/-- `reprFrom m i bs`: memory `m` carries the boundary tags of the blocks
`bs` laid out consecutively from unit `i`: each block has positive size
and its header and footer cells both hold its size and allocated bit. -/
def reprFrom (m : Int → HF) : Int → List Blk → Prop
  | _, [] => True
  | i, b :: rest =>
      1 ≤ b.bsize
      ∧ (m i).size_of_blk = b.bsize
      ∧ (m i).alloc_or_not = (if b.balloc then 1 else 0)
      ∧ (m (i + (b.bsize : Int) - 1)).size_of_blk = b.bsize
      ∧ (m (i + (b.bsize : Int) - 1)).alloc_or_not = (if b.balloc then 1 else 0)
      ∧ reprFrom m (i + (b.bsize : Int)) rest

/-- Start offsets of the blocks of `bs` laid out from `i`. -/
def starts : Int → List Blk → List (Int × Blk)
  | _, [] => []
  | i, b :: rest => (i, b) :: starts (i + (b.bsize : Int)) rest

/-- No two physically adjacent blocks are both free. -/
def noAdjFree (bs : List Blk) : Prop :=
  List.Chain' (fun a b => a.balloc = true ∨ b.balloc = true) bs

/-- `a`'s `next_free` points to `b` and `b`'s `previous_free` back to `a`. -/
def linked (m : Int → HF) (a b : Int) : Prop :=
  (m a).next_free = b ∧ (m b).previous_free = a

/-- Consecutive elements are doubly linked. -/
def pathOK (m : Int → HF) (l : List Int) : Prop :=
  List.Chain' (linked m) l

/-- `ns` is a circular doubly-linked list in `m` (wrap edge included). -/
def ringOK (m : Int → HF) (ns : List Int) : Prop :=
  ns ≠ [] ∧ pathOK m (ns ++ ns.take 1)

/-- The allocator invariant relating a state to an abstract layout `bs`
and the free-list ring `ns` (in link order, anchored at the head): the
arena tiles into `bs` with agreeing boundary tags, bracketed by the
leading size-4 and trailing one-unit sentinels, no two adjacent blocks
are both free, and the ring consists of exactly the leading sentinel and
the free-block starts. -/
structure Inv (s : MMState) (bs : List Blk) (ns : List Int) : Prop where
  htile : s.heapBytes = sizeofHF * totalSize bs
  hrepr : reprFrom s.mem 0 bs
  hhead : ∃ bs1, bs = Blk.mk 4 true :: bs1
  hlast : ∃ bs1, bs = bs1 ++ [Blk.mk 1 true]
  htot : totalSize bs < 2 ^ sizeBits
  hring : ringOK s.mem ns
  hanchor : s.freelist = ns.head?
  hnodup : ns.Nodup
  hsound : ∀ x ∈ ns, x = 0 ∨ ∃ sz, (x, Blk.mk sz false) ∈ starts 0 bs
  hcomplete : ∀ p sz, (p, Blk.mk sz false) ∈ starts 0 bs → p ∈ ns
  hzero : (0 : Int) ∈ ns
  hnoadj : noAdjFree bs

/-- The property claim C3 states, at memory level: every free block's
physical predecessor footer (at `p - 1`) and physical successor header
(at `p + size`) carry a set allocated bit. -/
def memNoAdjFree (s : MMState) (bs : List Blk) : Prop :=
  ∀ p sz, (p, Blk.mk sz false) ∈ starts 0 bs →
    (s.mem (p - 1)).alloc_or_not = 1 ∧ (s.mem (p + (sz : Int))).alloc_or_not = 1

/-- Two memories agree on `size_of_blk` and `alloc_or_not` everywhere. -/
def sameSA (m1 m2 : Int → HF) : Prop :=
  ∀ j, (m1 j).size_of_blk = (m2 j).size_of_blk ∧ (m1 j).alloc_or_not = (m2 j).alloc_or_not

/-- Two memories agree on the two link fields everywhere. -/
def sameLinks (m1 m2 : Int → HF) : Prop :=
  ∀ j, (m1 j).next_free = (m2 j).next_free ∧ (m1 j).previous_free = (m2 j).previous_free

/-- The invariant at the program point between the two halves of
`returnfreeblocktolist`: the arena tiles into `front`, a free block of
`hc` units at the front's end, and `ys`; the ring `ns` is anchored at
that free block; no two adjacent blocks are both free except possibly the
free block and the head of `ys` (the upper half resolves that edge). -/
structure MidInv (s : MMState) (front ys : List Blk) (hc : Nat) (ns : List Int) : Prop where
  htile : s.heapBytes = sizeofHF * totalSize (front ++ Blk.mk hc false :: ys)
  hrepr : reprFrom s.mem 0 (front ++ Blk.mk hc false :: ys)
  hhead : ∃ bs1, front = Blk.mk 4 true :: bs1
  hlast : ∃ ys0, ys = ys0 ++ [Blk.mk 1 true]
  htot : totalSize (front ++ Blk.mk hc false :: ys) < 2 ^ sizeBits
  hsz : 1 ≤ hc
  hring : ringOK s.mem ns
  hanchor : s.freelist = some (totalSize front : Int)
  hhd : ns.head? = some (totalSize front : Int)
  hnodup : ns.Nodup
  hsound : ∀ x ∈ ns, x = 0
    ∨ ∃ q, (x, Blk.mk q false) ∈ starts 0 (front ++ Blk.mk hc false :: ys)
  hcomplete : ∀ p q, (p, Blk.mk q false) ∈ starts 0 (front ++ Blk.mk hc false :: ys) →
    p ∈ ns
  hzero : (0 : Int) ∈ ns
  hnoadjF : noAdjFree front
  hnoadjY : noAdjFree ys
  hlastF : ∀ L, front.getLast? = some L → L.balloc = true

/-- The C3 counterexample run, stage 0: `mm_init` on a fresh process state
with a 4224-byte growth limit. -/
def c3s0 : MMState := mm_init (initialState 4224)

/-- Stage 1: `mm_malloc(1)` — the anchor never fits, so the heap grows by
one page (171 units laid over the old trailing sentinel) and the split
path carves 4 units off the new block's high end. -/
def c3m : MMState × Option Int := mm_malloc 10 c3s0 1

/-- Stage 2: `mm_free` of the pointer `mm_malloc` returned. -/
def c3run : MMState := mm_free 10 c3m.1 ((c3m.2).getD 0)

/-! ## Field-update read lemmas -/


theorem wrSize_size_self (m : Int → HF) (i : Int) (v : Nat) :
    ((wrSize m i v) i).size_of_blk = v % 2 ^ sizeBits := by simp [wrSize]

theorem wrSize_size_ne (m : Int → HF) (i : Int) (v : Nat) {j : Int} (h : j ≠ i) :
    ((wrSize m i v) j).size_of_blk = (m j).size_of_blk := by simp [wrSize, h]

theorem wrSize_alloc (m : Int → HF) (i : Int) (v : Nat) (j : Int) :
    ((wrSize m i v) j).alloc_or_not = (m j).alloc_or_not := by
  by_cases h : j = i <;> simp [wrSize, h]

theorem wrSize_prev (m : Int → HF) (i : Int) (v : Nat) (j : Int) :
    ((wrSize m i v) j).previous_free = (m j).previous_free := by
  by_cases h : j = i <;> simp [wrSize, h]

theorem wrSize_next (m : Int → HF) (i : Int) (v : Nat) (j : Int) :
    ((wrSize m i v) j).next_free = (m j).next_free := by
  by_cases h : j = i <;> simp [wrSize, h]

theorem wrAlloc_alloc_self (m : Int → HF) (i : Int) (v : Nat) :
    ((wrAlloc m i v) i).alloc_or_not = v % 2 := by simp [wrAlloc]

theorem wrAlloc_alloc_ne (m : Int → HF) (i : Int) (v : Nat) {j : Int} (h : j ≠ i) :
    ((wrAlloc m i v) j).alloc_or_not = (m j).alloc_or_not := by simp [wrAlloc, h]

theorem wrAlloc_size (m : Int → HF) (i : Int) (v : Nat) (j : Int) :
    ((wrAlloc m i v) j).size_of_blk = (m j).size_of_blk := by
  by_cases h : j = i <;> simp [wrAlloc, h]

theorem wrAlloc_prev (m : Int → HF) (i : Int) (v : Nat) (j : Int) :
    ((wrAlloc m i v) j).previous_free = (m j).previous_free := by
  by_cases h : j = i <;> simp [wrAlloc, h]

theorem wrAlloc_next (m : Int → HF) (i : Int) (v : Nat) (j : Int) :
    ((wrAlloc m i v) j).next_free = (m j).next_free := by
  by_cases h : j = i <;> simp [wrAlloc, h]

theorem wrPrev_size (m : Int → HF) (i : Int) (v : Int) (j : Int) :
    ((wrPrev m i v) j).size_of_blk = (m j).size_of_blk := by
  by_cases h : j = i <;> simp [wrPrev, h]

theorem wrPrev_alloc (m : Int → HF) (i : Int) (v : Int) (j : Int) :
    ((wrPrev m i v) j).alloc_or_not = (m j).alloc_or_not := by
  by_cases h : j = i <;> simp [wrPrev, h]

theorem wrNext_size (m : Int → HF) (i : Int) (v : Int) (j : Int) :
    ((wrNext m i v) j).size_of_blk = (m j).size_of_blk := by
  by_cases h : j = i <;> simp [wrNext, h]

theorem wrNext_alloc (m : Int → HF) (i : Int) (v : Int) (j : Int) :
    ((wrNext m i v) j).alloc_or_not = (m j).alloc_or_not := by
  by_cases h : j = i <;> simp [wrNext, h]

theorem wrNext_next_self (m : Int → HF) (i : Int) (v : Int) :
    ((wrNext m i v) i).next_free = v := by simp [wrNext]

theorem wrNext_next_ne (m : Int → HF) (i : Int) (v : Int) {j : Int} (h : j ≠ i) :
    ((wrNext m i v) j).next_free = (m j).next_free := by simp [wrNext, h]

theorem wrNext_prev (m : Int → HF) (i : Int) (v : Int) (j : Int) :
    ((wrNext m i v) j).previous_free = (m j).previous_free := by
  by_cases h : j = i <;> simp [wrNext, h]

theorem wrPrev_prev_self (m : Int → HF) (i : Int) (v : Int) :
    ((wrPrev m i v) i).previous_free = v := by simp [wrPrev]

theorem wrPrev_prev_ne (m : Int → HF) (i : Int) (v : Int) {j : Int} (h : j ≠ i) :
    ((wrPrev m i v) j).previous_free = (m j).previous_free := by simp [wrPrev, h]

theorem wrPrev_next (m : Int → HF) (i : Int) (v : Int) (j : Int) :
    ((wrPrev m i v) j).next_free = (m j).next_free := by
  by_cases h : j = i <;> simp [wrPrev, h]

theorem wrSize_links (m : Int → HF) (i : Int) (v : Nat) (j : Int) :
    ((wrSize m i v) j).next_free = (m j).next_free
      ∧ ((wrSize m i v) j).previous_free = (m j).previous_free :=
  ⟨wrSize_next m i v j, wrSize_prev m i v j⟩

theorem wrAlloc_links (m : Int → HF) (i : Int) (v : Nat) (j : Int) :
    ((wrAlloc m i v) j).next_free = (m j).next_free
      ∧ ((wrAlloc m i v) j).previous_free = (m j).previous_free :=
  ⟨wrAlloc_next m i v j, wrAlloc_prev m i v j⟩


theorem increaseheapsize_refused (s : MMState) (headc : Nat)
    (h : s.limitBytes < s.heapBytes + conv_bytes (growHeads headc)) :
    increaseheapsize s headc = (s, none) := by
  unfold growHeads at h
  unfold increaseheapsize mem_sbrk
  dsimp only
  have hc : ¬ (s.heapBytes + conv_bytes
      (if headc < headchunksize pageSize then headchunksize pageSize else headc)
        ≤ s.limitBytes) := by omega
  rw [if_neg hc]
  simp

/-- The best-fit scan loop is a left fold of `bf_step` over the anchor
followed by the ring of nodes after it. -/
theorem bf_scan_go (s : MMState) (headc : Nat) (f : Int) :
    ∀ (ws : List Int) (fuel : Nat) (temp best : Int),
      chainNext s temp ws f → f ∉ ws → ws.length + 1 ≤ fuel →
      bf_scan s headc f fuel temp best = List.foldl (bf_step s headc) best (temp :: ws)
  | [], fuel + 1, temp, best, hchain, _, _ => by
    unfold chainNext at hchain
    unfold bf_scan
    dsimp only
    rw [hchain, if_pos rfl, List.foldl_cons, List.foldl_nil]
    rfl
  | x :: xs, fuel + 1, temp, best, hchain, hnotin, hfuel => by
    obtain ⟨hnx, hchain'⟩ := hchain
    have hxf : x ≠ f := fun h => hnotin (h ▸ List.mem_cons_self x xs)
    have hnotin' : f ∉ xs := fun h => hnotin (List.mem_cons_of_mem x h)
    unfold bf_scan
    dsimp only
    rw [hnx, if_neg hxf, List.foldl_cons]
    exact bf_scan_go s headc f xs fuel x (bf_step s headc best temp) hchain' hnotin'
      (by simp only [List.length_cons] at hfuel; omega)

theorem foldl_bf_step_const (s : MMState) (headc : Nat) (f : Int) :
    ∀ (l : List Int),
      (∀ t ∈ l, ¬(headc ≤ (s.mem t).size_of_blk ∧ (s.mem t).alloc_or_not = 0
          ∧ (s.mem t).size_of_blk < (s.mem f).size_of_blk)) →
      List.foldl (bf_step s headc) f l = f
  | [], _ => rfl
  | x :: xs, h => by
    have hx := h x (List.mem_cons_self x xs)
    have hstep : bf_step s headc f x = f := by unfold bf_step; rw [if_neg hx]
    rw [List.foldl_cons, hstep]
    exact foldl_bf_step_const s headc f xs (fun t ht => h t (List.mem_cons_of_mem x ht))

/-- When every node of the ring fails the fit test, the search loop walks
the whole ring and enters the growth branch. -/
theorem ff_loop_walk (s : MMState) (headc : Nat) (f : Int) (hfl : s.freelist = some f) :
    ∀ (ws : List Int) (fuel : Nat) (b : Int),
      chainNext s b ws f → f ∉ ws →
      (∀ x ∈ b :: ws, ¬(headc ≤ (s.mem x).size_of_blk ∧ (s.mem x).alloc_or_not = 0)) →
      ws.length + 1 ≤ fuel →
      ff_loop fuel s b headc
        = (match increaseheapsize s headc with
           | (s1, none) => (s1, none)
           | (s1, some nb) => ff_loop (fuel - (ws.length + 1)) s1 nb headc)
  | [], fuel + 1, b, hchain, _, hnofit, _ => by
    unfold chainNext at hchain
    conv_lhs => rw [ff_loop]
    dsimp only
    rw [if_neg (hnofit b (List.mem_cons_self b [])), hchain, hfl, if_pos rfl]
    simp only [List.length_nil, Nat.zero_add, Nat.add_sub_cancel]
  | x :: xs, fuel + 1, b, hchain, hnotin, hnofit, hfuel => by
    obtain ⟨hnx, hchain'⟩ := hchain
    have hxf : x ≠ f := fun h => hnotin (h ▸ List.mem_cons_self x xs)
    have hnotin' : f ∉ xs := fun h => hnotin (List.mem_cons_of_mem x h)
    conv_lhs => rw [ff_loop]
    dsimp only
    rw [if_neg (hnofit b (List.mem_cons_self b _)), hnx, hfl,
      if_neg (fun h => hxf (Option.some.inj h))]
    rw [ff_loop_walk s headc f hfl xs fuel x hchain' hnotin'
      (fun y hy => hnofit y (List.mem_cons_of_mem b hy))
      (by simp only [List.length_cons] at hfuel; omega)]
    have harith : fuel - (xs.length + 1) = (fuel + 1) - ((x :: xs).length + 1) := by
      simp only [List.length_cons]; omega
    rw [harith]

/-- When some node of the walk fits, the search loop serves a block. -/
theorem ff_loop_find (s : MMState) (headc : Nat) (f : Int) (hfl : s.freelist = some f) :
    ∀ (ws : List Int) (fuel : Nat) (b : Int),
      chainNext s b ws f → f ∉ ws →
      (∃ x ∈ b :: ws, headc ≤ (s.mem x).size_of_blk ∧ (s.mem x).alloc_or_not = 0) →
      ws.length + 1 ≤ fuel →
      (ff_loop fuel s b headc).2.isSome
  | [], fuel + 1, b, _, _, hfit, _ => by
    obtain ⟨x, hx, hfitx⟩ := hfit
    have hxb : x = b := by simpa using hx
    unfold ff_loop
    dsimp only
    rw [if_pos (hxb ▸ hfitx)]
    rcases hserve : serve_block s b headc with ⟨s1, p⟩
    simp
  | x :: xs, fuel + 1, b, hchain, hnotin, hfit, hfuel => by
    obtain ⟨hnx, hchain'⟩ := hchain
    by_cases hb : headc ≤ (s.mem b).size_of_blk ∧ (s.mem b).alloc_or_not = 0
    · unfold ff_loop
      dsimp only
      rw [if_pos hb]
      rcases hserve : serve_block s b headc with ⟨s1, p⟩
      simp
    · have hxf : x ≠ f := fun h => hnotin (h ▸ List.mem_cons_self x xs)
      have hnotin' : f ∉ xs := fun h => hnotin (List.mem_cons_of_mem x h)
      have hfit' : ∃ y ∈ x :: xs,
          headc ≤ (s.mem y).size_of_blk ∧ (s.mem y).alloc_or_not = 0 := by
        obtain ⟨y, hy, hfy⟩ := hfit
        rcases List.mem_cons.mp hy with h | h
        · exact absurd (h ▸ hfy) hb
        · exact ⟨y, h, hfy⟩
      unfold ff_loop
      dsimp only
      rw [if_neg hb, hnx, hfl, if_neg (fun h => hxf (Option.some.inj h))]
      exact ff_loop_find s headc f hfl xs fuel x hchain' hnotin' hfit'
        (by simp only [List.length_cons] at hfuel; omega)



theorem flUnit_some {s : MMState} {f : Int} (h : s.freelist = some f) : flUnit s = f := by
  simp [flUnit, h]

theorem headchunksize_pageSize : headchunksize pageSize = 171 := rfl

theorem growHeads_ge (headc : Nat) : 171 ≤ growHeads headc := by
  unfold growHeads
  rw [headchunksize_pageSize]
  split <;> omega

/-- Releasing a block whose physical neighbors are both allocated: no
coalescing happens, the block is inserted after the anchor and becomes
the new anchor, its size is unchanged and its allocated bit cleared. -/
theorem rfbtl_isolated (σ : MMState) (b : Int)
    (hpos : 1 ≤ (σ.mem b).size_of_blk)
    (hprev : (σ.mem (b - 1)).alloc_or_not = 1)
    (hnext : (σ.mem (b + ((σ.mem b).size_of_blk : Int))).alloc_or_not = 1) :
    (returnfreeblocktolist σ b).freelist = some b
      ∧ ((returnfreeblocktolist σ b).mem b).size_of_blk = (σ.mem b).size_of_blk
      ∧ ((returnfreeblocktolist σ b).mem b).alloc_or_not = 0
      ∧ (returnfreeblocktolist σ b).heapBytes = σ.heapBytes
      ∧ (returnfreeblocktolist σ b).limitBytes = σ.limitBytes := by
  have d1 : b - 1 ≠ b := by omega
  have d2 : b - 1 ≠ b + ((σ.mem b).size_of_blk : Int) - 1 := by omega
  have d3 : b + ((σ.mem b).size_of_blk : Int) ≠ b := by omega
  have d4 : b + ((σ.mem b).size_of_blk : Int) ≠ b + ((σ.mem b).size_of_blk : Int) - 1 := by
    omega
  unfold returnfreeblocktolist
  dsimp only
  split
  case isTrue h =>
    exfalso
    rw [wrAlloc_alloc_ne _ _ _ d1, wrAlloc_alloc_ne _ _ _ d2] at h
    omega
  case isFalse h1 =>
    dsimp only
    split
    case isTrue h =>
      exfalso
      rw [wrNext_alloc, wrPrev_alloc, wrNext_alloc, wrPrev_alloc,
        wrAlloc_alloc_ne _ _ _ d3, wrAlloc_alloc_ne _ _ _ d4] at h
      omega
    case isFalse h2 =>
      refine ⟨rfl, ?_, ?_, rfl, rfl⟩
      · rw [wrNext_size, wrPrev_size, wrNext_size, wrPrev_size, wrAlloc_size, wrAlloc_size]
      · rw [wrNext_alloc, wrPrev_alloc, wrNext_alloc, wrPrev_alloc, wrAlloc_alloc_self]

/-- A successful growth whose new block does not coalesce (the footer
before the old trailing sentinel is allocated): the grown free block sits
at the old trailing-sentinel position, carries the page-rounded size, is
free, and becomes the new anchor. -/
theorem increaseheapsize_no_merge (s : MMState) (headc : Nat)
    (hheads : growHeads headc < 2 ^ sizeBits)
    (hok : s.heapBytes + conv_bytes (growHeads headc) ≤ s.limitBytes)
    (hprev : (s.mem (((s.heapBytes / sizeofHF : Nat) : Int) - 2)).alloc_or_not = 1) :
    ∃ s2, increaseheapsize s headc
        = (s2, some (((s.heapBytes / sizeofHF : Nat) : Int) - 1))
      ∧ (s2.mem (((s.heapBytes / sizeofHF : Nat) : Int) - 1)).size_of_blk = growHeads headc
      ∧ (s2.mem (((s.heapBytes / sizeofHF : Nat) : Int) - 1)).alloc_or_not = 0
      ∧ s2.freelist = some (((s.heapBytes / sizeofHF : Nat) : Int) - 1) := by
  have hg : (if headc < headchunksize pageSize then headchunksize pageSize else headc)
      = growHeads headc := rfl
  have h171 := growHeads_ge headc
  have hpow : (2 : Nat) ^ sizeBits = 2147483648 := rfl
  unfold increaseheapsize mem_sbrk
  dsimp only
  rw [hg]
  rw [if_pos hok]
  have hm1 : ¬ (heapBase + (s.heapBytes : Int) = -1) := by
    have : heapBase = 9600 := rfl
    omega
  rw [if_neg hm1]
  have hunit : unitOfAddr (heapBase + (s.heapBytes : Int))
      = ((s.heapBytes / sizeofHF : Nat) : Int) := by
    unfold unitOfAddr
    rw [add_sub_cancel_left]
    rw [Int.ofNat_ediv]
  rw [hunit]
  set N : Int := ((s.heapBytes / sizeofHF : Nat) : Int) with hN
  set g : Nat := growHeads headc with hgdef
  -- the six writes of increaseheapsize
  set m6 : Int → HF :=
    wrSize (wrAlloc (wrAlloc (wrAlloc (wrSize (wrSize s.mem (N - 1 + (g : Int) - 1) g)
      (N - 1) g) (N - 1 + (g : Int) - 1) 0) (N - 1) 0) (N - 1 + (g : Int)) 1)
      (N - 1 + (g : Int)) 1 with hm6
  have hm6size : (m6 (N - 1)).size_of_blk = g := by
    rw [hm6]
    rw [wrSize_size_ne _ _ _ (by omega), wrAlloc_size, wrAlloc_size, wrAlloc_size,
      wrSize_size_self, hpow]
    omega
  have hm6allocprev : (m6 (N - 2)).alloc_or_not = 1 := by
    rw [hm6]
    rw [wrSize_alloc, wrAlloc_alloc_ne _ _ _ (by omega), wrAlloc_alloc_ne _ _ _ (by omega),
      wrAlloc_alloc_ne _ _ _ (by omega), wrSize_alloc, wrSize_alloc]
    exact hprev
  have hm6allocnext : (m6 (N - 1 + (g : Int))).alloc_or_not = 1 := by
    rw [hm6, wrSize_alloc, wrAlloc_alloc_self]
  dsimp only
  have hpos : 1 ≤ ((MMState.mk m6 (s.heapBytes + conv_bytes g) s.limitBytes s.freelist
      s.errno).mem (N - 1)).size_of_blk := by
    show 1 ≤ (m6 (N - 1)).size_of_blk
    rw [hm6size]
    omega
  have hprev1 : ((MMState.mk m6 (s.heapBytes + conv_bytes g) s.limitBytes s.freelist
      s.errno).mem (N - 1 - 1)).alloc_or_not = 1 := by
    show (m6 (N - 1 - 1)).alloc_or_not = 1
    have e : N - 1 - 1 = N - 2 := by ring
    rw [e]
    exact hm6allocprev
  have hnext1 : ((MMState.mk m6 (s.heapBytes + conv_bytes g) s.limitBytes s.freelist
      s.errno).mem (N - 1 + (((MMState.mk m6 (s.heapBytes + conv_bytes g) s.limitBytes
        s.freelist s.errno).mem (N - 1)).size_of_blk : Int))).alloc_or_not = 1 := by
    show (m6 (N - 1 + ((m6 (N - 1)).size_of_blk : Int))).alloc_or_not = 1
    rw [hm6size]
    exact hm6allocnext
  have hiso := rfbtl_isolated (MMState.mk m6 (s.heapBytes + conv_bytes g) s.limitBytes
    s.freelist s.errno) (N - 1) hpos hprev1 hnext1
  refine ⟨returnfreeblocktolist (MMState.mk m6 (s.heapBytes + conv_bytes g) s.limitBytes
    s.freelist s.errno) (N - 1), ?_, ?_, ?_, hiso.1⟩
  · rw [flUnit_some hiso.1]
  · rw [hiso.2.1]
    exact hm6size
  · exact hiso.2.2.1


/-- C2: when a chosen free block `b` is served for a request of `headc`
HF units, the code splits iff `b.size ≥ headc + 4` (`blocks = 4`).  On a
split the allocated piece of size `headc` is carved from the high-address
end (the returned header is `b + b.size - headc`), the remainder keeps
the low end with new size `b.size - headc`, stays free, and no free-list
link or anchor is touched, so the remainder keeps `b`'s list position;
otherwise the whole block is consumed with its size unchanged and both
boundary tags marked allocated. -/
theorem c2_split_policy (s : MMState) (b : Int) (headc : Nat)
    (hsz : (s.mem b).size_of_blk < 2 ^ sizeBits)
    (hfit : headc ≤ (s.mem b).size_of_blk)
    (hmin : 4 ≤ headc)
    (hfree : (s.mem b).alloc_or_not = 0) :
    ((s.mem b).size_of_blk < headc + blocks →
        (serve_block s b headc).2 = b
          ∧ (∀ j, (((serve_block s b headc).1.mem) j).size_of_blk = (s.mem j).size_of_blk)
          ∧ (((serve_block s b headc).1.mem) b).alloc_or_not = 1
          ∧ (((serve_block s b headc).1.mem)
               (b + ((s.mem b).size_of_blk : Int) - 1)).alloc_or_not = 1)
    ∧ (headc + blocks ≤ (s.mem b).size_of_blk →
        (serve_block s b headc).2 = b + ((s.mem b).size_of_blk : Int) - (headc : Int)
          ∧ (((serve_block s b headc).1.mem) b).size_of_blk = (s.mem b).size_of_blk - headc
          ∧ (((serve_block s b headc).1.mem) b).alloc_or_not = 0
          ∧ (((serve_block s b headc).1.mem)
               (b + ((s.mem b).size_of_blk : Int) - (headc : Int) - 1)).size_of_blk
              = (s.mem b).size_of_blk - headc
          ∧ (((serve_block s b headc).1.mem)
               (b + ((s.mem b).size_of_blk : Int) - (headc : Int))).size_of_blk = headc
          ∧ (((serve_block s b headc).1.mem)
               (b + ((s.mem b).size_of_blk : Int) - (headc : Int))).alloc_or_not = 1
          ∧ (((serve_block s b headc).1.mem)
               (b + ((s.mem b).size_of_blk : Int) - 1)).size_of_blk = headc
          ∧ (((serve_block s b headc).1.mem)
               (b + ((s.mem b).size_of_blk : Int) - 1)).alloc_or_not = 1
          ∧ (∀ j, (((serve_block s b headc).1.mem) j).previous_free = (s.mem j).previous_free)
          ∧ (∀ j, (((serve_block s b headc).1.mem) j).next_free = (s.mem j).next_free)
          ∧ (serve_block s b headc).1.freelist = s.freelist) := by
  have hb4 : blocks = 4 := rfl
  have hpow : 2 ^ sizeBits = 2147483648 := rfl
  rw [hpow] at hsz
  constructor
  · intro hwhole
    have hcond : headc + blocks > (s.mem b).size_of_blk := hwhole
    have hmem1 : (if some b = s.freelist
        then { s with freelist := some ((s.mem b).previous_free) } else s).mem = s.mem := by
      split <;> rfl
    unfold serve_block takefromlist
    rw [if_pos hcond]
    dsimp only
    rw [hmem1, wrPrev_size, wrNext_size]
    refine ⟨rfl, ?_, ?_, ?_⟩
    · intro j
      rw [wrAlloc_size, wrAlloc_size, wrPrev_size, wrNext_size]
    · rw [wrAlloc_alloc_self]
    · have hne : b + ((s.mem b).size_of_blk : Int) - 1 ≠ b := by omega
      rw [wrAlloc_alloc_ne _ _ _ hne, wrAlloc_alloc_self]
  · intro hsplit
    have hcond : ¬ (headc + blocks > (s.mem b).size_of_blk) := by omega
    unfold serve_block
    rw [if_neg hcond]
    dsimp only
    have e2 : b + ((s.mem b).size_of_blk : Int) - (headc : Int) - 1
        = b + (((s.mem b).size_of_blk - headc : Nat) : Int) - 1 := by omega
    have e3 : b + ((s.mem b).size_of_blk : Int) - 1
        = b + (((s.mem b).size_of_blk - headc : Nat) : Int) + (headc : Int) - 1 := by omega
    have e4 : b + ((s.mem b).size_of_blk : Int) - (headc : Int)
        = b + (((s.mem b).size_of_blk - headc : Nat) : Int) := by omega
    rw [e2, e3, e4]
    have h14 : b ≠ b + (((s.mem b).size_of_blk - headc : Nat) : Int) := by omega
    have h13 : b ≠ b + (((s.mem b).size_of_blk - headc : Nat) : Int) + (headc : Int) - 1 := by
      omega
    have h12 : b ≠ b + (((s.mem b).size_of_blk - headc : Nat) : Int) - 1 := by omega
    have h24 : b + (((s.mem b).size_of_blk - headc : Nat) : Int) - 1
        ≠ b + (((s.mem b).size_of_blk - headc : Nat) : Int) := by omega
    have h23 : b + (((s.mem b).size_of_blk - headc : Nat) : Int) - 1
        ≠ b + (((s.mem b).size_of_blk - headc : Nat) : Int) + (headc : Int) - 1 := by omega
    have h34 : b + (((s.mem b).size_of_blk - headc : Nat) : Int) + (headc : Int) - 1
        ≠ b + (((s.mem b).size_of_blk - headc : Nat) : Int) := by omega
    have h43 : b + (((s.mem b).size_of_blk - headc : Nat) : Int)
        ≠ b + (((s.mem b).size_of_blk - headc : Nat) : Int) + (headc : Int) - 1 := by omega
    refine ⟨by omega, ?_, ?_, ?_, ?_, ?_, ?_, ?_, ?_, ?_, rfl⟩
    · rw [wrAlloc_size, wrAlloc_size, wrSize_size_ne _ _ _ h14, wrSize_size_ne _ _ _ h13,
        wrSize_size_ne _ _ _ h12, wrSize_size_self, hpow]
      omega
    · rw [wrAlloc_alloc_ne _ _ _ h14, wrAlloc_alloc_ne _ _ _ h13, wrSize_alloc, wrSize_alloc,
        wrSize_alloc, wrSize_alloc]
      exact hfree
    · rw [wrAlloc_size, wrAlloc_size, wrSize_size_ne _ _ _ h24, wrSize_size_ne _ _ _ h23,
        wrSize_size_self, wrSize_size_self, hpow]
      omega
    · rw [wrAlloc_size, wrAlloc_size, wrSize_size_self, hpow]
      omega
    · rw [wrAlloc_alloc_self]
    · rw [wrAlloc_size, wrAlloc_size, wrSize_size_ne _ _ _ h34, wrSize_size_self, hpow]
      omega
    · rw [wrAlloc_alloc_ne _ _ _ h34, wrAlloc_alloc_self]
    · intro j
      rw [wrAlloc_prev, wrAlloc_prev, wrSize_prev, wrSize_prev, wrSize_prev, wrSize_prev]
    · intro j
      rw [wrAlloc_next, wrAlloc_next, wrSize_next, wrSize_next, wrSize_next, wrSize_next]


theorem fast_path_guard_false (p : Int) : fast_path_guard p = false := by
  simp [fast_path_guard, sizeofMaxAlign]

theorem growHeads_ge_self (headc : Nat) : headc ≤ growHeads headc := by
  unfold growHeads
  split <;> omega

theorem ff_loop_fit (s : MMState) (blck : Int) (headc : Nat) (k : Nat)
    (hfit : headc ≤ (s.mem blck).size_of_blk ∧ (s.mem blck).alloc_or_not = 0) :
    (ff_loop (k + 1) s blck headc).2.isSome := by
  unfold ff_loop
  rw [if_pos hfit]
  rcases hs : serve_block s blck headc with ⟨s1, p⟩
  simp

theorem allocatedblock_some (fuel : Nat) (s : MMState) (p b : Int)
    (h : allocatedblock fuel s p = some b) : (s.mem b).alloc_or_not = 1 := by
  unfold allocatedblock at h
  split at h
  · exact absurd h (by simp)
  · simp only [fast_path_guard_false, Bool.false_eq_true, if_false] at h
    split at h
    case isTrue h2 => exact (Option.some.inj h) ▸ h2
    case isFalse h2 => exact absurd h (by simp)

/-- C4: with the free list given as the explicit ring `f :: ws`, if no
node fits the rounded request and the provider refuses the page-rounded
growth, `mm_malloc` returns `NULL` with `errno = ENOMEM` and the state
otherwise unchanged; if some node fits, or if no node fits but growth is
granted (and the grown block does not coalesce), `mm_malloc` returns a
non-null payload pointer. -/
theorem c4_malloc_oom_and_success (s : MMState) (n : Nat) (f : Int) (ws : List Int) (fuel : Nat)
    (hfl : s.freelist = some f)
    (hchain : chainNext s f ws f) (hnotin : f ∉ ws)
    (hfuel : ws.length + 2 ≤ fuel) :
    ((∀ x ∈ f :: ws, ¬(mallocChunks n ≤ (s.mem x).size_of_blk ∧ (s.mem x).alloc_or_not = 0)) →
      s.limitBytes < s.heapBytes + conv_bytes (growHeads (mallocChunks n)) →
      mm_malloc fuel s n = ({ s with errno := ENOMEM }, none))
    ∧ ((∃ x ∈ f :: ws, mallocChunks n ≤ (s.mem x).size_of_blk ∧ (s.mem x).alloc_or_not = 0) →
      (mm_malloc fuel s n).2.isSome)
    ∧ ((∀ x ∈ f :: ws, ¬(mallocChunks n ≤ (s.mem x).size_of_blk ∧ (s.mem x).alloc_or_not = 0)) →
      s.heapBytes + conv_bytes (growHeads (mallocChunks n)) ≤ s.limitBytes →
      growHeads (mallocChunks n) < 2 ^ sizeBits →
      (s.mem (((s.heapBytes / sizeofHF : Nat) : Int) - 2)).alloc_or_not = 1 →
      (mm_malloc fuel s n).2.isSome) := by
  have hflne : ¬ (s.freelist = none) := by rw [hfl]; simp
  have hflu : flUnit s = f := flUnit_some hfl
  refine ⟨?_, ?_, ?_⟩
  · intro hnofit hrefuse
    unfold mm_malloc pick_free_block_from_list_first_fit
    rw [if_neg hflne]
    dsimp only
    rw [hflu]
    rw [ff_loop_walk s (mallocChunks n) f hfl ws fuel f hchain hnotin hnofit (by omega)]
    rw [increaseheapsize_refused s _ hrefuse]
  · intro hfit
    have hfind := ff_loop_find s (mallocChunks n) f hfl ws fuel f hchain hnotin hfit
      (by omega)
    unfold mm_malloc pick_free_block_from_list_first_fit
    rw [if_neg hflne]
    dsimp only
    rw [hflu]
    rcases hr : ff_loop fuel s f (mallocChunks n) with ⟨s1, r⟩
    rw [hr] at hfind
    cases r with
    | none => simp at hfind
    | some h => simp
  · intro hnofit hok hheads hprev
    unfold mm_malloc pick_free_block_from_list_first_fit
    rw [if_neg hflne]
    dsimp only
    rw [hflu]
    rw [ff_loop_walk s (mallocChunks n) f hfl ws fuel f hchain hnotin hnofit (by omega)]
    obtain ⟨s2, hgrow, hsz2, hal2, hfl2⟩ :=
      increaseheapsize_no_merge s (mallocChunks n) hheads hok hprev
    rw [hgrow]
    dsimp only
    obtain ⟨k, hk⟩ : ∃ k, fuel - (ws.length + 1) = k + 1 := ⟨fuel - ws.length - 2, by omega⟩
    rw [hk]
    have hfit := ff_loop_fit s2 (((s.heapBytes / sizeofHF : Nat) : Int) - 1) (mallocChunks n) k
      ⟨by rw [hsz2]; exact growHeads_ge_self _, hal2⟩
    rcases hr : ff_loop (k + 1) s2 (((s.heapBytes / sizeofHF : Nat) : Int) - 1)
        (mallocChunks n) with ⟨s1, r⟩
    rw [hr] at hfit
    cases r with
    | none => simp at hfit
    | some h => simp

/-- C7 (amended): the best-fit scan computes a left fold of the
strict-improvement step `bf_step` over the anchor followed by the ring:
a block replaces the candidate only when it fits, is free, and is
strictly smaller than the current candidate, which starts at the anchor
block itself.  Consequently, when no fitting free block is strictly
smaller than the anchor block's size field, the scan returns the anchor
and placement proceeds exactly as the first-fit loop started at the
anchor. -/
theorem c7_best_fit_scan_behavior (s : MMState) (headc : Nat) (f : Int) (ws : List Int) (fuel : Nat)
    (hfl : s.freelist = some f)
    (hchain : chainNext s f ws f) (hnotin : f ∉ ws)
    (hfuel : ws.length + 1 ≤ fuel) :
    pick_free_block_from_list_best_fit fuel s headc
      = ff_loop fuel s (List.foldl (bf_step s headc) f (f :: ws)) headc
    ∧ ((∀ t ∈ f :: ws, ¬(headc ≤ (s.mem t).size_of_blk ∧ (s.mem t).alloc_or_not = 0
          ∧ (s.mem t).size_of_blk < (s.mem f).size_of_blk)) →
        pick_free_block_from_list_best_fit fuel s headc = ff_loop fuel s f headc) := by
  have hscan := bf_scan_go s headc f ws fuel f f hchain hnotin hfuel
  constructor
  · unfold pick_free_block_from_list_best_fit
    rw [hfl]
    dsimp only
    rw [hscan]
  · intro hnone
    unfold pick_free_block_from_list_best_fit
    rw [hfl]
    dsimp only
    rw [hscan, foldl_bf_step_const s headc f (f :: ws) hnone]

/-- C8: when `p` identifies an allocated block `b` that is too small for
the request, and the replacement allocation fails (no free-list node
fits and growth is refused), `mm_realloc` returns `NULL` and the state —
in particular `b`'s allocated bit, size, and payload — is exactly the
input state. -/
theorem c8_realloc_failure_undisturbed (s : MMState) (p : Int) (n : Nat) (b f : Int) (ws : List Int) (fuel : Nat)
    (hp : ¬ (p = 0))
    (hfl : s.freelist = some f)
    (hid : allocatedblock fuel s p = some b)
    (hbig : (s.mem b).size_of_blk < headchunksize n + 2)
    (hchain : chainNext s f ws f) (hnotin : f ∉ ws)
    (hnofit : ∀ x ∈ f :: ws,
      ¬(headchunksize n + 2 ≤ (s.mem x).size_of_blk ∧ (s.mem x).alloc_or_not = 0))
    (hrefuse : s.limitBytes < s.heapBytes + conv_bytes (growHeads (headchunksize n + 2)))
    (hfuel : ws.length + 1 ≤ fuel) :
    mm_realloc fuel s p n = (s, none)
      ∧ ((mm_realloc fuel s p n).1.mem b).alloc_or_not = 1
      ∧ ((mm_realloc fuel s p n).1.mem b).size_of_blk = (s.mem b).size_of_blk
      ∧ (∀ j, (mm_realloc fuel s p n).1.mem j = s.mem j) := by
  have halloc := allocatedblock_some fuel s p b hid
  have hno : ¬ (headchunksize n + 2 ≤ (s.mem b).size_of_blk) := by omega
  have hmain : mm_realloc fuel s p n = (s, none) := by
    unfold mm_realloc pick_free_block_from_list_first_fit
    rw [if_neg hp, hid]
    dsimp only
    rw [if_neg hno, flUnit_some hfl]
    rw [ff_loop_walk s (headchunksize n + 2) f hfl ws fuel f hchain hnotin hnofit hfuel]
    rw [increaseheapsize_refused s _ hrefuse]
  refine ⟨hmain, by rw [hmain]; exact halloc, by rw [hmain], by rw [hmain]; intro j; rfl⟩



/-! ## Layout and ring infrastructure lemmas -/

theorem totalSize_nil : totalSize [] = 0 := rfl

theorem totalSize_cons (b : Blk) (bs : List Blk) :
    totalSize (b :: bs) = b.bsize + totalSize bs := by
  simp [totalSize]

theorem totalSize_append (xs ys : List Blk) :
    totalSize (xs ++ ys) = totalSize xs + totalSize ys := by
  simp [totalSize]

theorem reprFrom_append (m : Int → HF) (xs ys : List Blk) :
    ∀ i : Int, reprFrom m i (xs ++ ys)
      ↔ reprFrom m i xs ∧ reprFrom m (i + (totalSize xs : Int)) ys := by
  induction xs with
  | nil =>
    intro i
    simp [reprFrom, totalSize_nil]
  | cons b rest ih =>
    intro i
    have e : i + ((b.bsize + totalSize rest : Nat) : Int)
        = i + (b.bsize : Int) + (totalSize rest : Int) := by push_cast; ring
    simp only [List.cons_append, reprFrom, totalSize_cons]
    constructor
    · rintro ⟨h1, h2, h3, h4, h5, h6⟩
      obtain ⟨ha, hb⟩ := (ih _).mp h6
      rw [e]
      exact ⟨⟨h1, h2, h3, h4, h5, ha⟩, hb⟩
    · rintro ⟨⟨h1, h2, h3, h4, h5, ha⟩, hb⟩
      rw [e] at hb
      exact ⟨h1, h2, h3, h4, h5, (ih _).mpr ⟨ha, hb⟩⟩

/-- Writes that change no `size_of_blk` or `alloc_or_not` field anywhere
preserve the layout relation. -/
theorem reprFrom_congr_sa (m m' : Int → HF)
    (h : ∀ j, (m' j).size_of_blk = (m j).size_of_blk
      ∧ (m' j).alloc_or_not = (m j).alloc_or_not) :
    ∀ (i : Int) (bs : List Blk), reprFrom m i bs → reprFrom m' i bs := by
  intro i bs
  induction bs generalizing i with
  | nil => intro; trivial
  | cons b rest ih =>
    rintro ⟨h1, h2, h3, h4, h5, h6⟩
    exact ⟨h1, (h i).1.trans h2, (h i).2.trans h3,
      (h _).1.trans h4, (h _).2.trans h5, ih _ h6⟩

/-- Writes outside `[i, i + totalSize bs)` preserve the layout relation. -/
theorem reprFrom_frame (m m' : Int → HF) :
    ∀ (i : Int) (bs : List Blk),
      reprFrom m i bs →
      (∀ j, i ≤ j → j < i + (totalSize bs : Int) →
        (m' j).size_of_blk = (m j).size_of_blk
          ∧ (m' j).alloc_or_not = (m j).alloc_or_not) →
      reprFrom m' i bs := by
  intro i bs
  induction bs generalizing i with
  | nil => intro h _; trivial
  | cons b rest ih =>
    rintro ⟨h1, h2, h3, h4, h5, h6⟩ hf
    have htot : (totalSize (b :: rest) : Int) = (b.bsize : Int) + (totalSize rest : Int) := by
      rw [totalSize_cons]; push_cast; ring
    have hb1 : i ≤ i := le_refl i
    have hb2 : i < i + (totalSize (b :: rest) : Int) := by
      rw [htot]
      have : (0 : Int) ≤ (totalSize rest : Int) := Int.ofNat_nonneg _
      omega
    have hf1 : i + (b.bsize : Int) - 1 < i + (totalSize (b :: rest) : Int) := by
      rw [htot]
      have : (0 : Int) ≤ (totalSize rest : Int) := Int.ofNat_nonneg _
      omega
    have hf2 : i ≤ i + (b.bsize : Int) - 1 := by omega
    refine ⟨h1, (hf i hb1 hb2).1.trans h2, (hf i hb1 hb2).2.trans h3,
      (hf _ hf2 hf1).1.trans h4, (hf _ hf2 hf1).2.trans h5, ?_⟩
    refine ih _ h6 ?_
    intro j hj1 hj2
    refine hf j (by omega) ?_
    rw [htot]
    omega

theorem starts_append (xs ys : List Blk) :
    ∀ i : Int, starts i (xs ++ ys)
      = starts i xs ++ starts (i + (totalSize xs : Int)) ys := by
  induction xs with
  | nil => intro i; simp [starts, totalSize_nil]
  | cons b rest ih =>
    intro i
    have e : i + ((b.bsize + totalSize rest : Nat) : Int)
        = i + (b.bsize : Int) + (totalSize rest : Int) := by push_cast; ring
    rw [List.cons_append, starts, starts, ih (i + (b.bsize : Int)), totalSize_cons, e,
      List.cons_append]

/-- Start positions sit inside the laid-out range (sizes positive). -/
theorem mem_starts_bounds (p : Int) (B : Blk) :
    ∀ (bs : List Blk) (i : Int), (p, B) ∈ starts i bs →
      (∀ b ∈ bs, 1 ≤ b.bsize) →
      i ≤ p ∧ p + (B.bsize : Int) ≤ i + (totalSize bs : Int) := by
  intro bs
  induction bs with
  | nil => intro i h; simp [starts] at h
  | cons b rest ih =>
    intro i h hpos
    rw [starts, List.mem_cons] at h
    rcases h with h | h
    · simp only [Prod.mk.injEq] at h
      obtain ⟨rfl, rfl⟩ := h
      rw [totalSize_cons]
      have h0 : (0 : Int) ≤ (totalSize rest : Int) := Int.ofNat_nonneg _
      push_cast
      omega
    · have hb := hpos b (List.mem_cons_self b rest)
      obtain ⟨ih1, ih2⟩ := ih _ h (fun x hx => hpos x (List.mem_cons_of_mem b hx))
      rw [totalSize_cons]
      push_cast
      omega

/-- Decompose a start membership into a list split. -/
theorem mem_starts_split (p : Int) (B : Blk) :
    ∀ (bs : List Blk) (i : Int), (p, B) ∈ starts i bs →
      ∃ xs ys, bs = xs ++ B :: ys ∧ p = i + (totalSize xs : Int) := by
  intro bs
  induction bs with
  | nil => intro i h; simp [starts] at h
  | cons b rest ih =>
    intro i h
    rw [starts, List.mem_cons] at h
    rcases h with h | h
    · simp only [Prod.mk.injEq] at h
      obtain ⟨rfl, rfl⟩ := h
      exact ⟨[], rest, rfl, by simp [totalSize_nil]⟩
    · obtain ⟨xs, ys, hbs, hp⟩ := ih _ h
      refine ⟨b :: xs, ys, by rw [hbs, List.cons_append], ?_⟩
      rw [hp, totalSize_cons]
      push_cast
      ring

/-- Conversely, a split yields a start membership. -/
theorem split_mem_starts (xs ys : List Blk) (B : Blk) (i : Int) :
    (i + (totalSize xs : Int), B) ∈ starts i (xs ++ B :: ys) := by
  rw [starts_append]
  refine List.mem_append_right _ ?_
  rw [starts]
  exact List.mem_cons_self _ _

theorem reprFrom_pos (m : Int → HF) :
    ∀ (bs : List Blk) (i : Int), reprFrom m i bs → ∀ b ∈ bs, 1 ≤ b.bsize := by
  intro bs
  induction bs with
  | nil => intro i _ b hb; simp at hb
  | cons c rest ih =>
    rintro i ⟨h1, _, _, _, _, h6⟩ b hb
    rcases List.mem_cons.mp hb with rfl | hb
    · exact h1
    · exact ih _ h6 b hb

/-! ## Ring lemmas -/

theorem pathOK_eq (m : Int → HF) (l : List Int) :
    pathOK m l = List.Chain' (linked m) l := rfl

theorem chain_transfer (m m' : Int → HF) :
    ∀ l : List Int,
      (∀ x ∈ l.dropLast, (m' x).next_free = (m x).next_free) →
      (∀ x ∈ l.tail, (m' x).previous_free = (m x).previous_free) →
      List.Chain' (linked m) l → List.Chain' (linked m') l
  | [] , _, _, _ => List.chain'_nil
  | [_], _, _, _ => List.chain'_singleton _
  | a :: b :: rest, hnext, hprev, hch => by
    rw [List.chain'_cons] at hch ⊢
    obtain ⟨⟨he1, he2⟩, hch⟩ := hch
    have ha : a ∈ (a :: b :: rest).dropLast := by
      rw [List.dropLast_cons₂]
      exact List.mem_cons_self _ _
    have hb : b ∈ (a :: b :: rest).tail := List.mem_cons_self _ _
    refine ⟨⟨(hnext a ha).trans he1, (hprev b hb).trans he2⟩, ?_⟩
    refine chain_transfer m m' (b :: rest) ?_ ?_ hch
    · intro x hx
      refine hnext x ?_
      rw [List.dropLast_cons₂]
      exact List.mem_cons_of_mem a hx
    · intro x hx
      exact hprev x (List.mem_cons_of_mem b hx)

theorem ringOK_rotate_one (m : Int → HF) (a : Int) (w : List Int) :
    ringOK m (a :: w) → ringOK m (w ++ [a]) := by
  rintro ⟨-, hch⟩
  rw [pathOK_eq] at hch
  cases w with
  | nil =>
    refine ⟨by simp, ?_⟩
    rw [pathOK_eq]
    have hl : linked m a a := by simpa using hch
    simpa using hl
  | cons b w' =>
    refine ⟨by simp, ?_⟩
    rw [pathOK_eq]
    simp only [List.take, List.cons_append, List.nil_append] at hch ⊢
    rw [List.chain'_cons] at hch
    obtain ⟨hab, hch⟩ := hch
    have htake : (b :: (w' ++ [a])).take 1 = [b] := rfl
    show List.Chain' (linked m) ((b :: w' ++ [a]) ++ [b])
    rw [List.chain'_append]
    refine ⟨hch, List.chain'_singleton _, ?_⟩
    intro x hx y hy
    simp only [List.head?_cons, Option.mem_def, Option.some.injEq] at hy
    have hlast : (b :: w' ++ [a]).getLast? = some a := by
      rw [List.getLast?_concat]
    rw [hlast] at hx
    simp only [Option.mem_def, Option.some.injEq] at hx
    subst hx
    subst hy
    exact hab

theorem ringOK_swap (m : Int → HF) :
    ∀ (u v : List Int), ringOK m (u ++ v) → ringOK m (v ++ u)
  | [], v, h => by simpa using h
  | a :: u', v, h => by
    have h1 : ringOK m (a :: (u' ++ v)) := by simpa using h
    have h2 := ringOK_rotate_one m a (u' ++ v) h1
    have h3 : ringOK m ((u' ++ (v ++ [a]))) := by simpa using h2
    have h4 := ringOK_swap m u' (v ++ [a]) h3
    have e : (v ++ [a]) ++ u' = v ++ a :: u' := by simp
    rw [e] at h4
    exact h4

theorem chain_last_edge (m : Int → HF) :
    ∀ (l : List Int) (x : Int), l ≠ [] →
      List.Chain' (linked m) (l ++ [x]) → ∃ y ∈ l, linked m y x
  | [], _, h, _ => absurd rfl h
  | [a], x, _, hch => by
    refine ⟨a, List.mem_cons_self _ _, ?_⟩
    simpa using hch
  | a :: b :: rest, x, _, hch => by
    rw [List.cons_append, List.cons_append, List.chain'_cons] at hch
    have hch2 : List.Chain' (linked m) ((b :: rest) ++ [x]) := by
      rw [List.cons_append]
      exact hch.2
    obtain ⟨y, hy, hl⟩ := chain_last_edge m (b :: rest) x (by simp) hch2
    exact ⟨y, List.mem_cons_of_mem a hy, hl⟩

theorem ring_next_mem (m : Int → HF) (ns : List Int) (x : Int)
    (hring : ringOK m ns) (hx : x ∈ ns) : (m x).next_free ∈ ns := by
  obtain ⟨u, v, rfl⟩ := List.append_of_mem hx
  have h1 : ringOK m (x :: (v ++ u)) := by
    have := ringOK_swap m u (x :: v) hring
    simpa using this
  obtain ⟨-, hch⟩ := h1
  rw [pathOK_eq] at hch
  cases hv : v ++ u with
  | nil =>
    rw [hv] at hch
    have hl : linked m x x := by simpa using hch
    rw [hl.1]
    exact hx
  | cons c w =>
    rw [hv] at hch
    have hxc : linked m x c := by
      have h2 : List.Chain' (linked m) (x :: c :: (w ++ [x])) := by simpa using hch
      exact (List.chain'_cons.mp h2).1
    rw [hxc.1]
    have hc : c ∈ v ++ u := by rw [hv]; exact List.mem_cons_self _ _
    rcases List.mem_append.mp hc with h | h
    · exact List.mem_append_right _ (List.mem_cons_of_mem _ h)
    · exact List.mem_append_left _ h

theorem ring_prev_mem (m : Int → HF) (ns : List Int) (x : Int)
    (hring : ringOK m ns) (hx : x ∈ ns) : (m x).previous_free ∈ ns := by
  obtain ⟨u, v, rfl⟩ := List.append_of_mem hx
  have h1 : ringOK m ((v ++ u) ++ [x]) := by
    have e : u ++ x :: v = (u ++ [x]) ++ v := by simp
    rw [e] at hring
    have := ringOK_swap m (u ++ [x]) v hring
    simpa [List.append_assoc] using this
  obtain ⟨-, hch⟩ := h1
  rw [pathOK_eq] at hch
  cases hv : v ++ u with
  | nil =>
    rw [hv] at hch
    have hl : linked m x x := by simpa using hch
    rw [hl.2]
    exact hx
  | cons c w =>
    rw [hv] at hch
    have hch2 : List.Chain' (linked m) ((c :: w) ++ [x]) := by
      have h2 : List.Chain' (linked m) (((c :: w) ++ [x]) ++ [c]) := by simpa using hch
      exact h2.left_of_append
    obtain ⟨y, hy, hl⟩ := chain_last_edge m (c :: w) x (by simp) hch2
    rw [hl.2]
    have hymem : y ∈ v ++ u := by rw [hv]; exact hy
    rcases List.mem_append.mp hymem with h | h
    · exact List.mem_append_right _ (List.mem_cons_of_mem _ h)
    · exact List.mem_append_left _ h

/-! ## Ring surgery: insertion and removal -/

theorem ring_insert (m : Int → HF) (h b nx : Int) (t : List Int)
    (hring : ringOK m (h :: t))
    (hnodup : (h :: t).Nodup)
    (hb : b ∉ h :: t)
    (hnx : nx = (m h).next_free) :
    ringOK (wrNext (wrPrev (wrNext (wrPrev m b h) b nx) nx b) h b) (h :: b :: t) := by
  have hbh : b ≠ h := fun e => hb (e ▸ List.mem_cons_self _ _)
  obtain ⟨-, hch⟩ := hring
  rw [pathOK_eq] at hch
  cases t with
  | nil =>
    have hl : linked m h h := by simpa using hch
    have hnxh : nx = h := by rw [hnx, hl.1]
    rw [hnxh]
    refine ⟨by simp, ?_⟩
    rw [pathOK_eq]
    show List.Chain' _ (h :: b :: [h])
    rw [List.chain'_cons, List.chain'_cons]
    refine ⟨⟨?_, ?_⟩, ⟨?_, ?_⟩, List.chain'_singleton _⟩
    · rw [wrNext_next_self]
    · rw [wrNext_prev, wrPrev_prev_ne _ _ _ hbh, wrNext_prev, wrPrev_prev_self]
    · rw [wrNext_next_ne _ _ _ hbh, wrPrev_next, wrNext_next_self]
    · rw [wrNext_prev, wrPrev_prev_self]
  | cons c t' =>
    have hl : linked m h c := by
      have h2 : List.Chain' (linked m) (h :: c :: (t' ++ [h])) := by simpa using hch
      exact (List.chain'_cons.mp h2).1
    have hnxc : nx = c := by rw [hnx, hl.1]
    rw [hnxc]
    have hbc : b ≠ c := fun e => hb (e ▸ List.mem_cons_of_mem h (List.mem_cons_self _ _))
    have hhc : h ≠ c := by
      intro e
      exact (List.nodup_cons.mp hnodup).1 (e ▸ List.mem_cons_self _ _)
    refine ⟨by simp, ?_⟩
    rw [pathOK_eq]
    show List.Chain' _ (h :: b :: ((c :: t') ++ [h]))
    rw [List.chain'_cons, List.cons_append, List.chain'_cons]
    have hchold : List.Chain' (linked m) ((c :: t') ++ [h]) := by
      have h2 : List.Chain' (linked m) (h :: (c :: t' ++ [h])) := by simpa using hch
      exact (List.chain'_cons.mp h2).2
    refine ⟨⟨?_, ?_⟩, ⟨?_, ?_⟩, ?_⟩
    · rw [wrNext_next_self]
    · rw [wrNext_prev, wrPrev_prev_ne _ _ _ hbc, wrNext_prev, wrPrev_prev_self]
    · rw [wrNext_next_ne _ _ _ hbh, wrPrev_next, wrNext_next_self]
    · rw [wrNext_prev, wrPrev_prev_self]
    · have hgoal : List.Chain' (linked (wrNext (wrPrev (wrNext (wrPrev m b h) b c) c b) h b))
          ((c :: t') ++ [h]) := by
        refine chain_transfer m _ ((c :: t') ++ [h]) ?_ ?_ hchold
        · intro x hx
          have hxmem : x ∈ c :: t' := by
            have hdl : ((c :: t') ++ [h]).dropLast = c :: t' := List.dropLast_concat
            rw [hdl] at hx
            exact hx
          have hxb : x ≠ b := fun e => hb (e ▸ List.mem_cons_of_mem h hxmem)
          have hxh : x ≠ h := by
            intro e
            exact (List.nodup_cons.mp hnodup).1 (e ▸ hxmem)
          rw [wrNext_next_ne _ _ _ hxh, wrPrev_next, wrNext_next_ne _ _ _ hxb, wrPrev_next]
        · intro x hx
          have hxmem : x ∈ t' ++ [h] := by simpa using hx
          have hxb : x ≠ b := by
            intro e
            subst e
            rcases List.mem_append.mp hxmem with hm | hm
            · exact hb (List.mem_cons_of_mem h (List.mem_cons_of_mem c hm))
            · exact hbh (by simpa using hm)
          have hxc : x ≠ c := by
            intro e
            subst e
            have hnd2 := (List.nodup_cons.mp hnodup).2
            rcases List.mem_append.mp hxmem with hm | hm
            · exact (List.nodup_cons.mp hnd2).1 hm
            · have hch2 : x = h := by simpa using hm
              exact hhc hch2.symm
          rw [wrNext_prev, wrPrev_prev_ne _ _ _ hxc, wrNext_prev, wrPrev_prev_ne _ _ _ hxb]
      exact hgoal

theorem ring_remove_head (m : Int → HF) (x : Int) (t : List Int)
    (hring : ringOK m (x :: t))
    (hnodup : (x :: t).Nodup)
    (ht : t ≠ []) :
    ringOK (wrPrev (wrNext m ((m x).previous_free) ((m x).next_free))
      ((m x).next_free) ((m x).previous_free)) t := by
  obtain ⟨-, hch⟩ := hring
  rw [pathOK_eq] at hch
  cases t with
  | nil => exact absurd rfl ht
  | cons c w =>
    have hch2 : List.Chain' (linked m) (x :: (c :: w ++ [x])) := by simpa using hch
    obtain ⟨hxc, hch3⟩ := List.chain'_cons.mp hch2
    have hch4 : List.Chain' (linked m) ((c :: w) ++ [x]) := by
      rw [List.cons_append]
      exact hch3
    have hnext : (m x).next_free = c := hxc.1
    have hlastm : (c :: w).getLast? = some ((c :: w).getLast (by simp)) :=
      List.getLast?_eq_getLast _ _
    have hprev : (m x).previous_free = (c :: w).getLast (by simp) := by
      have hsplit := List.chain'_append.mp hch4
      have hlk := hsplit.2.2 ((c :: w).getLast (by simp)) hlastm x rfl
      exact hlk.2
    rw [hnext, hprev]
    have hnodup2 : (c :: w).Nodup := (List.nodup_cons.mp hnodup).2
    have hchsub : List.Chain' (linked m) (c :: w) := (List.chain'_append.mp hch4).1
    cases w with
    | nil =>
      have hlc : (([c] : List Int)).getLast (by simp) = c := rfl
      rw [hlc]
      refine ⟨by simp, ?_⟩
      rw [pathOK_eq]
      show List.Chain' _ (c :: [c])
      rw [List.chain'_cons]
      refine ⟨⟨?_, ?_⟩, List.chain'_singleton _⟩
      · rw [wrPrev_next, wrNext_next_self]
      · rw [wrPrev_prev_self]
    | cons d w' =>
      have hlast_ne_dl : (c :: d :: w').getLast (by simp) ∉ (c :: d :: w').dropLast := by
        have hsplit := List.dropLast_append_getLast (l := c :: d :: w') (by simp)
        have hnd : ((c :: d :: w').dropLast ++ [(c :: d :: w').getLast (by simp)]).Nodup := by
          rw [hsplit]
          exact hnodup2
        have hd := List.nodup_append.mp hnd
        intro hmem
        exact hd.2.2 hmem (List.mem_cons_self _ _)
      have hcw : c ∉ d :: w' := (List.nodup_cons.mp hnodup2).1
      refine ⟨by simp, ?_⟩
      rw [pathOK_eq]
      show List.Chain' _ ((c :: d :: w') ++ [c])
      rw [List.chain'_append]
      refine ⟨?_, List.chain'_singleton _, ?_⟩
      · refine chain_transfer m _ (c :: d :: w') ?_ ?_ hchsub
        · intro y hy
          have hyne : y ≠ (c :: d :: w').getLast (by simp) := fun e => hlast_ne_dl (e ▸ hy)
          rw [wrPrev_next, wrNext_next_ne _ _ _ hyne]
        · intro y hy
          have hyw : y ∈ d :: w' := by simpa using hy
          have hync : y ≠ c := fun e => hcw (e ▸ hyw)
          rw [wrPrev_prev_ne _ _ _ hync, wrNext_prev]
      · intro p hp q hq
        have hlast : (c :: d :: w').getLast? = some ((c :: d :: w').getLast (by simp)) :=
          List.getLast?_eq_getLast _ _
        rw [hlast] at hp
        have hpl : (c :: d :: w').getLast (by simp) = p := by simpa using hp
        have hqc : c = q := by simpa using hq
        subst hpl
        subst hqc
        constructor
        · rw [wrPrev_next, wrNext_next_self]
        · rw [wrPrev_prev_self]

/-! ## Separation, projection congruences, general ring removal -/

theorem mem_starts_sep :
    ∀ (bs : List Blk) (i q1 q2 : Int) (B1 B2 : Blk),
      (q1, B1) ∈ starts i bs → (q2, B2) ∈ starts i bs →
      (∀ b ∈ bs, 1 ≤ b.bsize) →
      (q1 = q2 ∧ B1 = B2) ∨ q1 + (B1.bsize : Int) ≤ q2 ∨ q2 + (B2.bsize : Int) ≤ q1
  | [], _, q1, _, _, _, h1, _, _ => by simp [starts] at h1
  | b :: rest, i, q1, q2, B1, B2, h1, h2, hpos => by
    have hpos' : ∀ x ∈ rest, 1 ≤ x.bsize := fun x hx => hpos x (List.mem_cons_of_mem b hx)
    rw [starts, List.mem_cons] at h1 h2
    rcases h1 with h1 | h1 <;> rcases h2 with h2 | h2
    · simp only [Prod.mk.injEq] at h1 h2
      exact Or.inl ⟨h1.1.trans h2.1.symm, h1.2.trans h2.2.symm⟩
    · simp only [Prod.mk.injEq] at h1
      obtain ⟨rfl, rfl⟩ := h1
      have := (mem_starts_bounds q2 B2 rest _ h2 hpos').1
      right; left
      omega
    · simp only [Prod.mk.injEq] at h2
      obtain ⟨rfl, rfl⟩ := h2
      have := (mem_starts_bounds q1 B1 rest _ h1 hpos').1
      right; right
      omega
    · exact mem_starts_sep rest _ q1 q2 B1 B2 h1 h2 hpos'

theorem mem_starts_inj (bs : List Blk) (q : Int) (B1 B2 : Blk)
    (h1 : (q, B1) ∈ starts 0 bs) (h2 : (q, B2) ∈ starts 0 bs)
    (hpos : ∀ b ∈ bs, 1 ≤ b.bsize) : B1 = B2 := by
  have hm1 : B1 ∈ bs := by
    obtain ⟨u, v, huv, -⟩ := mem_starts_split q B1 bs 0 h1
    rw [huv]
    exact List.mem_append_right _ (List.mem_cons_self _ _)
  have hm2 : B2 ∈ bs := by
    obtain ⟨u, v, huv, -⟩ := mem_starts_split q B2 bs 0 h2
    rw [huv]
    exact List.mem_append_right _ (List.mem_cons_self _ _)
  rcases mem_starts_sep bs 0 q q B1 B2 h1 h2 hpos with h | h | h
  · exact h.2
  · have := hpos B1 hm1
    omega
  · have := hpos B2 hm2
    omega

theorem sameSA_refl (m : Int → HF) : sameSA m m := fun _ => ⟨rfl, rfl⟩

theorem sameSA_trans {m1 m2 m3 : Int → HF} (h1 : sameSA m1 m2) (h2 : sameSA m2 m3) :
    sameSA m1 m3 :=
  fun j => ⟨(h1 j).1.trans (h2 j).1, (h1 j).2.trans (h2 j).2⟩

theorem sameLinks_refl (m : Int → HF) : sameLinks m m := fun _ => ⟨rfl, rfl⟩

theorem sameLinks_trans {m1 m2 m3 : Int → HF} (h1 : sameLinks m1 m2)
    (h2 : sameLinks m2 m3) : sameLinks m1 m3 :=
  fun j => ⟨(h1 j).1.trans (h2 j).1, (h1 j).2.trans (h2 j).2⟩

theorem sameSA_wrNext (m : Int → HF) (i v : Int) : sameSA (wrNext m i v) m :=
  fun j => ⟨wrNext_size m i v j, wrNext_alloc m i v j⟩

theorem sameSA_wrPrev (m : Int → HF) (i v : Int) : sameSA (wrPrev m i v) m :=
  fun j => ⟨wrPrev_size m i v j, wrPrev_alloc m i v j⟩

theorem sameLinks_wrSize (m : Int → HF) (i : Int) (v : Nat) : sameLinks (wrSize m i v) m :=
  fun j => ⟨wrSize_next m i v j, wrSize_prev m i v j⟩

theorem sameLinks_wrAlloc (m : Int → HF) (i : Int) (v : Nat) :
    sameLinks (wrAlloc m i v) m :=
  fun j => ⟨wrAlloc_next m i v j, wrAlloc_prev m i v j⟩

theorem sameSA_wrSize_congr {m1 m2 : Int → HF} (h : sameSA m1 m2) (i : Int) (v : Nat) :
    sameSA (wrSize m1 i v) (wrSize m2 i v) := by
  intro j
  by_cases hj : j = i
  · subst hj
    exact ⟨by rw [wrSize_size_self, wrSize_size_self],
      by rw [wrSize_alloc, wrSize_alloc]; exact (h j).2⟩
  · exact ⟨by rw [wrSize_size_ne _ _ _ hj, wrSize_size_ne _ _ _ hj]; exact (h j).1,
      by rw [wrSize_alloc, wrSize_alloc]; exact (h j).2⟩

theorem sameSA_wrAlloc_congr {m1 m2 : Int → HF} (h : sameSA m1 m2) (i : Int) (v : Nat) :
    sameSA (wrAlloc m1 i v) (wrAlloc m2 i v) := by
  intro j
  by_cases hj : j = i
  · subst hj
    exact ⟨by rw [wrAlloc_size, wrAlloc_size]; exact (h j).1,
      by rw [wrAlloc_alloc_self, wrAlloc_alloc_self]⟩
  · exact ⟨by rw [wrAlloc_size, wrAlloc_size]; exact (h j).1,
      by rw [wrAlloc_alloc_ne _ _ _ hj, wrAlloc_alloc_ne _ _ _ hj]; exact (h j).2⟩

theorem sameLinks_wrNext_congr {m1 m2 : Int → HF} (h : sameLinks m1 m2) (i v : Int) :
    sameLinks (wrNext m1 i v) (wrNext m2 i v) := by
  intro j
  by_cases hj : j = i
  · subst hj
    exact ⟨by rw [wrNext_next_self, wrNext_next_self],
      by rw [wrNext_prev, wrNext_prev]; exact (h j).2⟩
  · exact ⟨by rw [wrNext_next_ne _ _ _ hj, wrNext_next_ne _ _ _ hj]; exact (h j).1,
      by rw [wrNext_prev, wrNext_prev]; exact (h j).2⟩

theorem sameLinks_wrPrev_congr {m1 m2 : Int → HF} (h : sameLinks m1 m2) (i v : Int) :
    sameLinks (wrPrev m1 i v) (wrPrev m2 i v) := by
  intro j
  by_cases hj : j = i
  · subst hj
    exact ⟨by rw [wrPrev_next, wrPrev_next]; exact (h j).1,
      by rw [wrPrev_prev_self, wrPrev_prev_self]⟩
  · exact ⟨by rw [wrPrev_next, wrPrev_next]; exact (h j).1,
      by rw [wrPrev_prev_ne _ _ _ hj, wrPrev_prev_ne _ _ _ hj]; exact (h j).2⟩

theorem linked_congr {m1 m2 : Int → HF} (h : sameLinks m1 m2) (a b : Int) :
    linked m1 a b ↔ linked m2 a b := by
  unfold linked
  rw [(h a).1, (h b).2]

theorem ringOK_congr {m1 m2 : Int → HF} (h : sameLinks m1 m2) {ns : List Int} :
    ringOK m1 ns → ringOK m2 ns := by
  rintro ⟨h1, h2⟩
  refine ⟨h1, ?_⟩
  rw [pathOK_eq] at h2 ⊢
  exact List.Chain'.imp (fun a b hab => (linked_congr h a b).mp hab) h2

theorem reprFrom_congr (m1 m2 : Int → HF) (h : sameSA m1 m2) (i : Int) (bs : List Blk) :
    reprFrom m1 i bs → reprFrom m2 i bs :=
  reprFrom_congr_sa m1 m2 (fun j => ⟨(h j).1.symm, (h j).2.symm⟩) i bs

theorem ring_remove (m : Int → HF) (x : Int) (u v : List Int)
    (hring : ringOK m (u ++ x :: v))
    (hnodup : (u ++ x :: v).Nodup)
    (hne : u ++ v ≠ []) :
    ringOK (wrPrev (wrNext m ((m x).previous_free) ((m x).next_free))
      ((m x).next_free) ((m x).previous_free)) (u ++ v) := by
  have h1 : ringOK m (x :: (v ++ u)) := by
    have := ringOK_swap m u (x :: v) hring
    simpa using this
  have hperm : (u ++ x :: v).Perm (x :: (v ++ u)) := by
    have hp1 : (u ++ x :: v).Perm ((x :: v) ++ u) := List.perm_append_comm
    simpa using hp1
  have hnodup1 : (x :: (v ++ u)).Nodup := hperm.nodup_iff.mp hnodup
  have hvu : v ++ u ≠ [] := by
    intro he
    apply hne
    have : u = [] ∧ v = [] := by
      constructor
      · rcases List.append_eq_nil.mp he with ⟨h1, h2⟩
        exact h2
      · rcases List.append_eq_nil.mp he with ⟨h1, h2⟩
        exact h1
    rw [this.1, this.2]
    rfl
  have h2 := ring_remove_head m x (v ++ u) h1 hnodup1 hvu
  have h3 := ringOK_swap _ v u h2
  exact h3

theorem sameSA_symm {m1 m2 : Int → HF} (h : sameSA m1 m2) : sameSA m2 m1 :=
  fun j => ⟨(h j).1.symm, (h j).2.symm⟩

theorem sameLinks_symm {m1 m2 : Int → HF} (h : sameLinks m1 m2) : sameLinks m2 m1 :=
  fun j => ⟨(h j).1.symm, (h j).2.symm⟩

theorem returnfreeblocktolist_eq (s : MMState) (p : Int) :
    returnfreeblocktolist s p =
      rfbtl_upper { s with mem := (rfbtl_lower s p).2.2,
                           freelist := some (rfbtl_lower s p).1 }
        (rfbtl_lower s p).1 (rfbtl_lower s p).2.1 := rfl

/-! ## Block-cell reads, layout builders, adjacency glue -/

theorem repr_block_cells (m : Int → HF) (xs ys : List Blk) (B : Blk)
    (h : reprFrom m 0 (xs ++ B :: ys)) :
    1 ≤ B.bsize
    ∧ (m (totalSize xs : Int)).size_of_blk = B.bsize
    ∧ (m (totalSize xs : Int)).alloc_or_not = (if B.balloc then 1 else 0)
    ∧ (m ((totalSize xs : Int) + (B.bsize : Int) - 1)).size_of_blk = B.bsize
    ∧ (m ((totalSize xs : Int) + (B.bsize : Int) - 1)).alloc_or_not
        = (if B.balloc then 1 else 0)
    ∧ reprFrom m 0 xs
    ∧ reprFrom m ((totalSize xs : Int) + (B.bsize : Int)) ys := by
  obtain ⟨hxs, hmid⟩ := (reprFrom_append m xs (B :: ys) 0).mp h
  rw [show (0 : Int) + (totalSize xs : Int) = (totalSize xs : Int) by ring] at hmid
  simp only [reprFrom] at hmid
  obtain ⟨h1, h2, h3, h4, h5, h6⟩ := hmid
  exact ⟨h1, h2, h3, h4, h5, hxs, h6⟩

theorem repr_block_build (m : Int → HF) (xs ys : List Blk) (B : Blk)
    (h1 : 1 ≤ B.bsize)
    (h2 : (m (totalSize xs : Int)).size_of_blk = B.bsize)
    (h3 : (m (totalSize xs : Int)).alloc_or_not = (if B.balloc then 1 else 0))
    (h4 : (m ((totalSize xs : Int) + (B.bsize : Int) - 1)).size_of_blk = B.bsize)
    (h5 : (m ((totalSize xs : Int) + (B.bsize : Int) - 1)).alloc_or_not
        = (if B.balloc then 1 else 0))
    (h6 : reprFrom m 0 xs)
    (h7 : reprFrom m ((totalSize xs : Int) + (B.bsize : Int)) ys) :
    reprFrom m 0 (xs ++ B :: ys) := by
  refine (reprFrom_append m xs (B :: ys) 0).mpr ⟨h6, ?_⟩
  rw [show (0 : Int) + (totalSize xs : Int) = (totalSize xs : Int) by ring]
  simp only [reprFrom]
  exact ⟨h1, h2, h3, h4, h5, h7⟩

theorem starts_mid_decomp (xs ys : List Blk) (B : Blk) :
    starts 0 (xs ++ B :: ys)
      = starts 0 xs ++ ((totalSize xs : Int), B)
          :: starts ((totalSize xs : Int) + (B.bsize : Int)) ys := by
  rw [starts_append, starts]
  rw [show (0 : Int) + (totalSize xs : Int) = (totalSize xs : Int) by ring]

theorem noAdjFree_glue (xs ys : List Blk) (B : Blk)
    (h1 : noAdjFree xs) (h2 : noAdjFree ys)
    (hL : ∀ L, xs.getLast? = some L → L.balloc = true ∨ B.balloc = true)
    (hU : ∀ U, ys.head? = some U → B.balloc = true ∨ U.balloc = true) :
    noAdjFree (xs ++ B :: ys) := by
  unfold noAdjFree at h1 h2 ⊢
  rw [List.chain'_append]
  refine ⟨h1, ?_, ?_⟩
  · rw [List.chain'_cons']
    exact ⟨fun y hy => hU y hy, h2⟩
  · intro x hx y hy
    have hyB : B = y := by simpa using hy
    subst hyB
    exact hL x hx

theorem sentinel_last (xs ys bs1 : List Blk) (B S : Blk) (hys : ys ≠ [])
    (h : xs ++ B :: ys = bs1 ++ [S]) : ∃ ys0, ys = ys0 ++ [S] := by
  have e0 : ys.dropLast ++ [ys.getLast hys] = ys := List.dropLast_append_getLast hys
  have h1 : (xs ++ B :: ys).getLast? = some S := by rw [h]; exact List.getLast?_concat _
  have e : xs ++ B :: ys = (xs ++ B :: ys.dropLast) ++ [ys.getLast hys] := by
    conv_lhs => rw [← e0]
    simp
  rw [e, List.getLast?_concat] at h1
  have h2 : ys.getLast hys = S := by simpa using h1
  exact ⟨ys.dropLast, by rw [← h2]; exact e0.symm⟩

theorem head_cons_of (xs ys bs1 : List Blk) (B H : Blk) (hxs : xs ≠ [])
    (h : xs ++ B :: ys = H :: bs1) : ∃ xs1, xs = H :: xs1 := by
  cases xs with
  | nil => exact absurd rfl hxs
  | cons a t =>
    rw [List.cons_append] at h
    injection h with h1 _
    exact ⟨t, by rw [h1]⟩

theorem wrAlloc2_alloc_in (m : Int → HF) (f p j : Int) (h : j = p ∨ j = f) :
    (wrAlloc (wrAlloc m f 0) p 0 j).alloc_or_not = 0 := by
  rcases h with rfl | rfl
  · rw [wrAlloc_alloc_self]
  · by_cases hjp : j = p
    · rw [hjp, wrAlloc_alloc_self]
    · rw [wrAlloc_alloc_ne _ _ _ hjp, wrAlloc_alloc_self]

theorem wrAlloc2_alloc_out (m : Int → HF) (f p j : Int) (h1 : j ≠ p) (h2 : j ≠ f) :
    (wrAlloc (wrAlloc m f 0) p 0 j).alloc_or_not = (m j).alloc_or_not := by
  rw [wrAlloc_alloc_ne _ _ _ h1, wrAlloc_alloc_ne _ _ _ h2]

theorem sameSA_wrAlloc2 (m : Int → HF) (f p : Int) :
    sameLinks (wrAlloc (wrAlloc m f 0) p 0) m :=
  sameLinks_trans (sameLinks_wrAlloc _ _ _) (sameLinks_wrAlloc _ _ _)

theorem noAdjFree_left (xs ys : List Blk) (h : noAdjFree (xs ++ ys)) : noAdjFree xs :=
  h.left_of_append

theorem noAdjFree_right (xs ys : List Blk) (h : noAdjFree (xs ++ ys)) : noAdjFree ys :=
  h.right_of_append

/-! ## The upper-coalescing half of `returnfreeblocktolist` preserves the invariant -/

theorem rfbtl_upper_preserves (s2 : MMState) (front ys : List Blk) (hc : Nat)
    (ns : List Int) (h : MidInv s2 front ys hc ns) :
    ∃ bs' ns' msz,
      Inv (rfbtl_upper s2 (totalSize front : Int) hc) bs' ns'
      ∧ (rfbtl_upper s2 (totalSize front : Int) hc).freelist
          = some (totalSize front : Int)
      ∧ ((totalSize front : Int), Blk.mk msz false) ∈ starts 0 bs'
      ∧ hc ≤ msz := by
  obtain ⟨htile, hrepr, hhead, hlast, htot, hsz, hring, hanchor, hhd, hnodup,
    hsound, hcomplete, hzero, hnoadjF, hnoadjY, hlastF⟩ := h
  obtain ⟨ys0, hys0⟩ := hlast
  cases ys with
  | nil => simp at hys0
  | cons U ys' =>
  have hassoc : front ++ Blk.mk hc false :: U :: ys'
      = (front ++ [Blk.mk hc false]) ++ U :: ys' := by simp
  have htots : (totalSize (front ++ [Blk.mk hc false]) : Int)
      = (totalSize front : Int) + (hc : Int) := by
    rw [totalSize_append, totalSize_cons, totalSize_nil]
    push_cast
    ring
  have hcells := repr_block_cells s2.mem (front ++ [Blk.mk hc false]) ys' U
    (by rw [← hassoc]; exact hrepr)
  rw [htots] at hcells
  obtain ⟨hU1, hU2, hU3, hU4, hU5, -, hUys⟩ := hcells
  have hcells2 := repr_block_cells s2.mem front (U :: ys') (Blk.mk hc false) hrepr
  obtain ⟨-, hM2, hM3, hM4, hM5, hFront, -⟩ := hcells2
  have hM3' : (s2.mem (totalSize front : Int)).alloc_or_not = 0 := by simpa using hM3
  have hposAll : ∀ b ∈ front ++ Blk.mk hc false :: U :: ys', 1 ≤ b.bsize :=
    reprFrom_pos s2.mem _ 0 hrepr
  have hposF : ∀ b ∈ front, 1 ≤ b.bsize :=
    fun b hb => hposAll b (List.mem_append_left _ hb)
  have hposY : ∀ b ∈ ys', 1 ≤ b.bsize :=
    fun b hb => hposAll b (List.mem_append_right _
      (List.mem_cons_of_mem _ (List.mem_cons_of_mem _ hb)))
  obtain ⟨bs1, hfront4⟩ := hhead
  have hbv4 : 4 ≤ totalSize front := by
    rw [hfront4, totalSize_cons]
    exact Nat.le_add_right 4 _
  cases hUb : U.balloc with
  | true =>
    have hcond : ¬ (s2.mem ((totalSize front : Int) + (hc : Int))).alloc_or_not = 0 := by
      rw [hU3, hUb]
      simp
    rw [rfbtl_upper, if_neg hcond]
    refine ⟨front ++ Blk.mk hc false :: U :: ys', ns, hc, ?_, hanchor, ?_, le_refl hc⟩
    · refine ⟨htile, hrepr, ?_, ?_, htot, hring, hanchor.trans hhd.symm, hnodup,
        hsound, hcomplete, hzero, ?_⟩
      · exact ⟨bs1 ++ Blk.mk hc false :: U :: ys', by rw [hfront4, List.cons_append]⟩
      · refine ⟨front ++ Blk.mk hc false :: ys0, ?_⟩
        rw [show (front ++ Blk.mk hc false :: ys0) ++ [Blk.mk 1 true]
            = front ++ Blk.mk hc false :: (ys0 ++ [Blk.mk 1 true]) by simp, ← hys0]
      · refine noAdjFree_glue front (U :: ys') (Blk.mk hc false) hnoadjF hnoadjY
          (fun L hL => Or.inl (hlastF L hL)) ?_
        intro V hV
        have hVU : U = V := by simpa using hV
        exact Or.inr (hVU ▸ hUb)
    · rw [starts_mid_decomp]
      exact List.mem_append_right _ (List.mem_cons_self _ _)
  | false =>
    have hcond : (s2.mem ((totalSize front : Int) + (hc : Int))).alloc_or_not = 0 := by
      rw [hU3, hUb]
      simp
    have hUeq : U = Blk.mk U.bsize false := by
      cases U with
      | mk a b => exact congrArg (Blk.mk a) hUb
    have hys'ne : ys' ≠ [] := by
      intro he
      subst he
      cases ys0 with
      | nil =>
        have : U = Blk.mk 1 true := by simpa using hys0
        rw [this] at hUb
        simp at hUb
      | cons a t =>
        rw [List.cons_append] at hys0
        injection hys0 with _ h2
        simp at h2
    have hys'last : ∃ ys0', ys' = ys0' ++ [Blk.mk 1 true] := by
      cases ys0 with
      | nil =>
        have h2 : ys' = [] := by
          have hl := congrArg List.length hys0
          simpa using hl
        exact absurd h2 hys'ne
      | cons a t =>
        rw [List.cons_append] at hys0
        injection hys0 with _ h2
        exact ⟨t, h2⟩
    have hYtail : noAdjFree ys' := (List.chain'_cons'.mp hnoadjY).2
    have hYhead : ∀ V, ys'.head? = some V → V.balloc = true := by
      intro V hV
      rcases (List.chain'_cons'.mp hnoadjY).1 V hV with hx | hx
      · rw [hUb] at hx
        simp at hx
      · exact hx
    have hp2mem : ((totalSize front : Int) + (hc : Int)) ∈ ns := by
      apply hcomplete _ U.bsize
      rw [hassoc, starts_mid_decomp, htots, ← hUeq]
      exact List.mem_append_right _ (List.mem_cons_self _ _)
    cases ns with
    | nil => simp at hhd
    | cons n0 rest =>
    have hn0 : n0 = (totalSize front : Int) := by simpa using hhd
    subst hn0
    have hp2rest : ((totalSize front : Int) + (hc : Int)) ∈ rest := by
      rcases List.mem_cons.mp hp2mem with he | hm
      · exfalso
        omega
      · exact hm
    obtain ⟨u', v', hrest⟩ := List.append_of_mem hp2rest
    subst hrest
    have hnodup2 : (((totalSize front : Int) :: u')
        ++ ((totalSize front : Int) + (hc : Int)) :: v').Nodup := by
      rw [List.cons_append]
      exact hnodup
    have hringSplit : ringOK s2.mem (((totalSize front : Int) :: u')
        ++ ((totalSize front : Int) + (hc : Int)) :: v') := by
      rw [List.cons_append]
      exact hring
    have hrem := ring_remove s2.mem ((totalSize front : Int) + (hc : Int))
      ((totalSize front : Int) :: u') v' hringSplit hnodup2 (by simp)
    rw [rfbtl_upper, if_pos hcond]
    simp only [takefromlist]
    have hszread : ((wrPrev (wrNext s2.mem
        (s2.mem ((totalSize front : Int) + (hc : Int))).previous_free
        (s2.mem ((totalSize front : Int) + (hc : Int))).next_free)
        (s2.mem ((totalSize front : Int) + (hc : Int))).next_free
        (s2.mem ((totalSize front : Int) + (hc : Int))).previous_free)
        ((totalSize front : Int) + (hc : Int))).size_of_blk = U.bsize := by
      rw [wrPrev_size, wrNext_size]
      exact hU2
    rw [hszread]
    have hsaMT : sameSA (wrPrev (wrNext s2.mem
        (s2.mem ((totalSize front : Int) + (hc : Int))).previous_free
        (s2.mem ((totalSize front : Int) + (hc : Int))).next_free)
        (s2.mem ((totalSize front : Int) + (hc : Int))).next_free
        (s2.mem ((totalSize front : Int) + (hc : Int))).previous_free) s2.mem :=
      sameSA_trans (sameSA_wrPrev _ _ _) (sameSA_wrNext _ _ _)
    have hoff1 : (totalSize front : Int) + ((hc + U.bsize : Nat) : Int)
        = (totalSize front : Int) + (hc : Int) + (U.bsize : Int) := by
      push_cast
      ring
    have hoff2 : (totalSize front : Int) + ((hc + U.bsize : Nat) : Int) - 1
        = (totalSize front : Int) + (hc : Int) + (U.bsize : Int) - 1 := by
      push_cast
      ring
    have hToteq : totalSize (front ++ Blk.mk (hc + U.bsize) false :: ys')
        = totalSize (front ++ Blk.mk hc false :: U :: ys') := by
      rw [totalSize_append, totalSize_append, totalSize_cons, totalSize_cons,
        totalSize_cons]
      show totalSize front + (hc + U.bsize + totalSize ys')
        = totalSize front + (hc + (U.bsize + totalSize ys'))
      omega
    have hltsum : totalSize front + (hc + (U.bsize + totalSize ys')) < 2 ^ sizeBits := by
      have e : totalSize (front ++ Blk.mk hc false :: U :: ys')
          = totalSize front + (hc + (U.bsize + totalSize ys')) := by
        rw [totalSize_append, totalSize_cons, totalSize_cons]
      rw [e] at htot
      exact htot
    have hlt : hc + U.bsize < 2 ^ sizeBits := by omega
    have hdrop : ∀ z : Int,
        z ∈ (totalSize front : Int) :: (u' ++ ((totalSize front : Int) + (hc : Int)) :: v') →
        z ≠ (totalSize front : Int) + (hc : Int) →
        z ∈ (totalSize front : Int) :: (u' ++ v') := by
      intro z hz hzne
      rcases List.mem_cons.mp hz with rfl | hz'
      · exact List.mem_cons_self _ _
      · rcases List.mem_append.mp hz' with hzz | hzz
        · exact List.mem_cons_of_mem _ (List.mem_append_left _ hzz)
        · rcases List.mem_cons.mp hzz with he | hz2
          · exact absurd he hzne
          · exact List.mem_cons_of_mem _ (List.mem_append_right _ hz2)
    have hp2notdup : ((totalSize front : Int) + (hc : Int)) ∉ u'
        ∧ ((totalSize front : Int) + (hc : Int)) ∉ v' := by
      have hnd1 := (List.nodup_cons.mp hnodup).2
      have hnd2 := List.nodup_append.mp hnd1
      refine ⟨fun hmem => ?_, fun hmem => ?_⟩
      · exact hnd2.2.2 hmem (List.mem_cons_self _ _)
      · exact (List.nodup_cons.mp hnd2.2.1).1 hmem
    have hbvnot : (totalSize front : Int)
        ∉ u' ++ ((totalSize front : Int) + (hc : Int)) :: v' :=
      (List.nodup_cons.mp hnodup).1
    refine ⟨front ++ Blk.mk (hc + U.bsize) false :: ys', (totalSize front : Int) :: u' ++ v',
      hc + U.bsize, ?_, ?_, ?_, Nat.le_add_right _ _⟩
    · refine ⟨?_, ?_, ?_, ?_, ?_, ?_, ?_, ?_, ?_, ?_, ?_, ?_⟩
      · show s2.heapBytes = sizeofHF * totalSize (front ++ Blk.mk (hc + U.bsize) false :: ys')
        rw [hToteq]
        exact htile
      · -- layout after the merge
        refine reprFrom_congr _ _ (sameSA_symm (sameSA_wrSize_congr
          (sameSA_wrSize_congr hsaMT _ _) _ _)) 0 _ ?_
        refine repr_block_build _ front ys' (Blk.mk (hc + U.bsize) false)
          (le_trans hsz (Nat.le_add_right _ _)) ?_ ?_ ?_ ?_ ?_ ?_
        · rw [wrSize_size_self]
          show (hc + U.bsize) % 2 ^ sizeBits = hc + U.bsize
          exact Nat.mod_eq_of_lt hlt
        · rw [wrSize_alloc, wrSize_alloc]
          exact hM3'
        · have hne1 : (totalSize front : Int) + ((hc + U.bsize : Nat) : Int) - 1
              ≠ (totalSize front : Int) := by
            push_cast
            omega
          rw [wrSize_size_ne _ _ _ hne1, wrSize_size_self]
          show (hc + U.bsize) % 2 ^ sizeBits = hc + U.bsize
          exact Nat.mod_eq_of_lt hlt
        · rw [wrSize_alloc, wrSize_alloc]
          show (s2.mem ((totalSize front : Int) + ((hc + U.bsize : Nat) : Int) - 1)).alloc_or_not
            = if (Blk.mk (hc + U.bsize) false).balloc = true then 1 else 0
          rw [hoff2, hU5, hUb]
        · refine reprFrom_frame s2.mem _ 0 front hFront ?_
          intro j hj1 hj2
          have hjne1 : j ≠ (totalSize front : Int) := by omega
          have hjne2 : j ≠ (totalSize front : Int) + ((hc + U.bsize : Nat) : Int) - 1 := by
            push_cast
            omega
          constructor
          · rw [wrSize_size_ne _ _ _ hjne1, wrSize_size_ne _ _ _ hjne2]
          · rw [wrSize_alloc, wrSize_alloc]
        · have hUys' : reprFrom s2.mem
              ((totalSize front : Int) + ((hc + U.bsize : Nat) : Int)) ys' := by
            rw [hoff1]
            exact hUys
          refine reprFrom_frame s2.mem _ _ ys' hUys' ?_
          intro j hj1 hj2
          have hjne1 : j ≠ (totalSize front : Int) := by
            push_cast at hj1 ⊢
            omega
          have hjne2 : j ≠ (totalSize front : Int) + ((hc + U.bsize : Nat) : Int) - 1 := by
            push_cast at hj1 ⊢
            omega
          constructor
          · rw [wrSize_size_ne _ _ _ hjne1, wrSize_size_ne _ _ _ hjne2]
          · rw [wrSize_alloc, wrSize_alloc]
      · exact ⟨bs1 ++ Blk.mk (hc + U.bsize) false :: ys',
          by rw [hfront4, List.cons_append]⟩
      · obtain ⟨ys0', hys0'⟩ := hys'last
        refine ⟨front ++ Blk.mk (hc + U.bsize) false :: ys0', ?_⟩
        rw [show (front ++ Blk.mk (hc + U.bsize) false :: ys0') ++ [Blk.mk 1 true]
            = front ++ Blk.mk (hc + U.bsize) false :: (ys0' ++ [Blk.mk 1 true]) by simp,
          ← hys0']
      · show totalSize (front ++ Blk.mk (hc + U.bsize) false :: ys') < 2 ^ sizeBits
        rw [hToteq]
        exact htot
      · refine ringOK_congr (sameLinks_symm (sameLinks_trans (sameLinks_wrSize _ _ _)
          (sameLinks_wrSize _ _ _))) ?_
        exact hrem
      · exact hanchor
      · have hsub : List.Sublist (((totalSize front : Int) :: u') ++ v')
            (((totalSize front : Int) :: u')
              ++ ((totalSize front : Int) + (hc : Int)) :: v') :=
          List.Sublist.append_left (List.sublist_cons_self _ _) _
        exact hnodup2.sublist hsub
      · intro x hx
        rcases List.mem_cons.mp hx with rfl | hx'
        · right
          exact ⟨hc + U.bsize, by
            rw [starts_mid_decomp]
            exact List.mem_append_right _ (List.mem_cons_self _ _)⟩
        · have hxp2 : x ≠ (totalSize front : Int) + (hc : Int) := by
            rintro rfl
            rcases List.mem_append.mp hx' with hmm | hmm
            · exact hp2notdup.1 hmm
            · exact hp2notdup.2 hmm
          have hxns : x ∈ (totalSize front : Int)
              :: (u' ++ ((totalSize front : Int) + (hc : Int)) :: v') := by
            rcases List.mem_append.mp hx' with hmm | hmm
            · exact List.mem_cons_of_mem _ (List.mem_append_left _ hmm)
            · exact List.mem_cons_of_mem _
                (List.mem_append_right _ (List.mem_cons_of_mem _ hmm))
          rcases hsound x hxns with h0 | ⟨q, hq⟩
          · exact Or.inl h0
          · right
            rw [starts_mid_decomp] at hq
            rcases List.mem_append.mp hq with hqf | hqm
            · exact ⟨q, by rw [starts_mid_decomp]; exact List.mem_append_left _ hqf⟩
            · rcases List.mem_cons.mp hqm with he | hqm2
              · exfalso
                have hxbv : x = (totalSize front : Int) := congrArg Prod.fst he
                subst hxbv
                rcases List.mem_append.mp hx' with hmm | hmm
                · exact hbvnot (List.mem_append_left _ hmm)
                · exact hbvnot (List.mem_append_right _ (List.mem_cons_of_mem _ hmm))
              · have hqm2a : (x, Blk.mk q false)
                    ∈ starts ((totalSize front : Int) + (hc : Int)) (U :: ys') := hqm2
                rw [starts] at hqm2a
                rcases List.mem_cons.mp hqm2a with he2 | hqy
                · exfalso
                  exact hxp2 (congrArg Prod.fst he2)
                · refine ⟨q, ?_⟩
                  rw [starts_mid_decomp]
                  refine List.mem_append_right _ (List.mem_cons_of_mem _ ?_)
                  show (x, Blk.mk q false) ∈ starts ((totalSize front : Int)
                    + (((hc + U.bsize : Nat)) : Int)) ys'
                  rw [hoff1]
                  have hqy2 : (x, Blk.mk q false)
                      ∈ starts ((totalSize front : Int) + (hc : Int) + (U.bsize : Int)) ys' :=
                    hqy
                  exact hqy2
      · intro p q hpq
        rw [starts_mid_decomp] at hpq
        rcases List.mem_append.mp hpq with hqf | hqm
        · have hb := mem_starts_bounds p (Blk.mk q false) front 0 hqf hposF
          have hq1 : 1 ≤ q := by
            obtain ⟨u0, v0, hsplit, -⟩ := mem_starts_split p (Blk.mk q false) front 0 hqf
            refine hposF (Blk.mk q false) ?_
            rw [hsplit]
            exact List.mem_append_right _ (List.mem_cons_self _ _)
          have hb2 : p + (q : Int) ≤ 0 + (totalSize front : Int) := hb.2
          have hpin : p ∈ (totalSize front : Int)
              :: (u' ++ ((totalSize front : Int) + (hc : Int)) :: v') := by
            apply hcomplete p q
            rw [starts_mid_decomp]
            exact List.mem_append_left _ hqf
          refine hdrop p hpin ?_
          omega
        · rcases List.mem_cons.mp hqm with he | hqm2
          · have hpbv : p = (totalSize front : Int) := congrArg Prod.fst he
            subst hpbv
            exact List.mem_cons_self _ _
          · show p ∈ (totalSize front : Int) :: (u' ++ v')
            have hqm2a : (p, Blk.mk q false) ∈ starts ((totalSize front : Int)
                + ((hc + U.bsize : Nat) : Int)) ys' := hqm2
            rw [hoff1] at hqm2a
            have hb := mem_starts_bounds p (Blk.mk q false) ys' _ hqm2a hposY
            have hb1 : (totalSize front : Int) + (hc : Int) + (U.bsize : Int) ≤ p := hb.1
            have hpin : p ∈ (totalSize front : Int)
                :: (u' ++ ((totalSize front : Int) + (hc : Int)) :: v') := by
              apply hcomplete p q
              rw [starts_mid_decomp]
              refine List.mem_append_right _ (List.mem_cons_of_mem _ ?_)
              have hstep : (p, Blk.mk q false)
                  ∈ starts ((totalSize front : Int) + (hc : Int)) (U :: ys') := by
                rw [starts]
                exact List.mem_cons_of_mem _ hqm2a
              exact hstep
            refine hdrop p hpin ?_
            omega
      · refine hdrop 0 hzero ?_
        omega
      · exact noAdjFree_glue front ys' (Blk.mk (hc + U.bsize) false) hnoadjF hYtail
          (fun L hL => Or.inl (hlastF L hL)) (fun V hV => Or.inr (hYhead V hV))
    · exact hanchor
    · rw [starts_mid_decomp]
      exact List.mem_append_right _ (List.mem_cons_self _ _)

/-! ## The lower-coalescing half of `returnfreeblocktolist` establishes `MidInv` -/

theorem rfbtl_lower_preserves (s : MMState) (xs ys : List Blk) (sz : Nat) (ab : Bool)
    (ns : List Int)
    (htile : s.heapBytes = sizeofHF * totalSize (xs ++ Blk.mk sz ab :: ys))
    (hrepr : reprFrom s.mem 0 (xs ++ Blk.mk sz ab :: ys))
    (hheadS : ∃ bs1, xs ++ Blk.mk sz ab :: ys = Blk.mk 4 true :: bs1)
    (hlastS : ∃ bs1, xs ++ Blk.mk sz ab :: ys = bs1 ++ [Blk.mk 1 true])
    (htot : totalSize (xs ++ Blk.mk sz ab :: ys) < 2 ^ sizeBits)
    (hring : ringOK s.mem ns)
    (hanchor : s.freelist = ns.head?)
    (hnodup : ns.Nodup)
    (hsound : ∀ x ∈ ns, x = 0
      ∨ ∃ q, (x, Blk.mk q false) ∈ starts 0 (xs ++ Blk.mk sz ab :: ys))
    (hcompl : ∀ p q, (p, Blk.mk q false) ∈ starts 0 (xs ++ Blk.mk sz ab :: ys) →
      p = (totalSize xs : Int) ∨ p ∈ ns)
    (hzero : (0 : Int) ∈ ns)
    (hxs : xs ≠ []) (hys : ys ≠ [])
    (hnadjx : noAdjFree xs) (hnadjy : noAdjFree ys)
    (hnotring : (totalSize xs : Int) ∉ ns) :
    ∃ front hc ns2,
      (rfbtl_lower s (totalSize xs : Int)).1 = (totalSize front : Int)
      ∧ (rfbtl_lower s (totalSize xs : Int)).2.1 = hc
      ∧ sz ≤ hc
      ∧ MidInv { s with
            mem := (rfbtl_lower s (totalSize xs : Int)).2.2,
            freelist := some (totalSize front : Int) } front ys hc ns2 := by
  obtain ⟨hB1, hB2, hB3, hB4, hB5, hXs, hYs⟩ :=
    repr_block_cells s.mem xs ys (Blk.mk sz ab) hrepr
  have hsz1 : 1 ≤ sz := hB1
  have hhd : (s.mem (totalSize xs : Int)).size_of_blk = sz := hB2
  have hB4' : (s.mem ((totalSize xs : Int) + (sz : Int) - 1)).size_of_blk = sz := hB4
  have hB5' : (s.mem ((totalSize xs : Int) + (sz : Int) - 1)).alloc_or_not
      = if ab then 1 else 0 := hB5
  have hYs' : reprFrom s.mem ((totalSize xs : Int) + (sz : Int)) ys := hYs
  have hposAll : ∀ b ∈ xs ++ Blk.mk sz ab :: ys, 1 ≤ b.bsize :=
    reprFrom_pos s.mem _ 0 hrepr
  have hposX : ∀ b ∈ xs, 1 ≤ b.bsize :=
    fun b hb => hposAll b (List.mem_append_left _ hb)
  have hposY : ∀ b ∈ ys, 1 ≤ b.bsize :=
    fun b hb => hposAll b (List.mem_append_right _ (List.mem_cons_of_mem _ hb))
  obtain ⟨xs2, L, hxsdec⟩ : ∃ xs2 L, xs = xs2 ++ [L] :=
    ⟨xs.dropLast, xs.getLast hxs, (List.dropLast_append_getLast hxs).symm⟩
  have hpxs : totalSize xs = totalSize xs2 + L.bsize := by
    rw [hxsdec, totalSize_append, totalSize_cons, totalSize_nil]
    omega
  have hrepr2 : reprFrom s.mem 0 (xs2 ++ L :: (Blk.mk sz ab :: ys)) := by
    rw [show xs2 ++ L :: (Blk.mk sz ab :: ys) = (xs2 ++ [L]) ++ Blk.mk sz ab :: ys by simp,
      ← hxsdec]
    exact hrepr
  obtain ⟨hL1, hL2, hL3, hL4, hL5, hXs2, -⟩ :=
    repr_block_cells s.mem xs2 (Blk.mk sz ab :: ys) L hrepr2
  have hfoot_pos : (totalSize xs2 : Int) + (L.bsize : Int) - 1 = (totalSize xs : Int) - 1 := by
    omega
  have hfootL_sz : (s.mem ((totalSize xs : Int) - 1)).size_of_blk = L.bsize := by
    rw [← hfoot_pos]
    exact hL4
  have hfootL_al : (s.mem ((totalSize xs : Int) - 1)).alloc_or_not
      = if L.balloc then 1 else 0 := by
    rw [← hfoot_pos]
    exact hL5
  have hne_fp : (totalSize xs : Int) - 1 ≠ (totalSize xs : Int) := by omega
  have hne_ff : (totalSize xs : Int) - 1 ≠ (totalSize xs : Int) + (sz : Int) - 1 := by omega
  have hcondval : ((wrAlloc (wrAlloc s.mem ((totalSize xs : Int) + (sz : Int) - 1) 0)
      (totalSize xs : Int) 0) ((totalSize xs : Int) - 1)).alloc_or_not
      = if L.balloc then 1 else 0 := by
    rw [wrAlloc2_alloc_out s.mem ((totalSize xs : Int) + (sz : Int) - 1)
      (totalSize xs : Int) ((totalSize xs : Int) - 1) hne_fp hne_ff]
    exact hfootL_al
  have hgl : xs.getLast? = some L := by
    rw [hxsdec]
    exact List.getLast?_concat _
  cases ns with
  | nil => exact absurd hzero (List.not_mem_nil 0)
  | cons n0 rest =>
  have hfl : flUnit s = n0 := by
    rw [flUnit, hanchor]
    rfl
  cases hLb : L.balloc with
  | true =>
    have hcond1 : ¬ ((wrAlloc (wrAlloc s.mem ((totalSize xs : Int) + (sz : Int) - 1) 0)
        (totalSize xs : Int) 0) ((totalSize xs : Int) - 1)).alloc_or_not = 0 := by
      rw [hcondval, hLb]
      simp
    have hkey : rfbtl_lower s (totalSize xs : Int)
        = ((totalSize xs : Int), sz,
           wrNext (wrPrev (wrNext (wrPrev
               (wrAlloc (wrAlloc s.mem ((totalSize xs : Int) + (sz : Int) - 1) 0)
                 (totalSize xs : Int) 0)
               (totalSize xs : Int) n0)
             (totalSize xs : Int) ((s.mem n0).next_free))
             ((s.mem n0).next_free) (totalSize xs : Int))
           n0 (totalSize xs : Int)) := by
      rw [rfbtl_lower]
      simp only [hhd]
      rw [if_neg hcond1, hfl]
      simp only [wrAlloc_next]
    have hToteq2 : totalSize (xs ++ Blk.mk sz false :: ys)
        = totalSize (xs ++ Blk.mk sz ab :: ys) := by
      rw [totalSize_append, totalSize_append, totalSize_cons, totalSize_cons]
    have hnssub : ∀ z : Int, z ∈ n0 :: rest
        → z ∈ (totalSize xs : Int) :: (rest ++ [n0]) := by
      intro z hz
      rcases List.mem_cons.mp hz with rfl | hz'
      · exact List.mem_cons_of_mem _ (List.mem_append_right _ (List.mem_cons_self _ _))
      · exact List.mem_cons_of_mem _ (List.mem_append_left _ hz')
    refine ⟨xs, sz, (totalSize xs : Int) :: (rest ++ [n0]), ?_, ?_, le_refl sz, ?_⟩
    · rw [hkey]
    · rw [hkey]
    · rw [hkey]
      have hsaM2 : sameSA
          (wrNext (wrPrev (wrNext (wrPrev
              (wrAlloc (wrAlloc s.mem ((totalSize xs : Int) + (sz : Int) - 1) 0)
                (totalSize xs : Int) 0)
              (totalSize xs : Int) n0)
            (totalSize xs : Int) ((s.mem n0).next_free))
            ((s.mem n0).next_free) (totalSize xs : Int))
          n0 (totalSize xs : Int))
          (wrAlloc (wrAlloc s.mem ((totalSize xs : Int) + (sz : Int) - 1) 0)
            (totalSize xs : Int) 0) :=
        sameSA_trans (sameSA_wrNext _ _ _) (sameSA_trans (sameSA_wrPrev _ _ _)
          (sameSA_trans (sameSA_wrNext _ _ _) (sameSA_wrPrev _ _ _)))
      refine ⟨?_, ?_, ?_, ?_, ?_, hsz1, ?_, ?_, ?_, ?_, ?_, ?_, ?_, ?_, hnadjy, ?_⟩
      · show s.heapBytes = sizeofHF * totalSize (xs ++ Blk.mk sz false :: ys)
        rw [hToteq2]
        exact htile
      · refine reprFrom_congr _ _ (sameSA_symm hsaM2) 0 _ ?_
        refine repr_block_build _ xs ys (Blk.mk sz false) hsz1 ?_ ?_ ?_ ?_ ?_ ?_
        · simp only [wrAlloc_size]
          exact hhd
        · exact wrAlloc2_alloc_in s.mem _ _ _ (Or.inl rfl)
        · simp only [wrAlloc_size]
          exact hB4'
        · exact wrAlloc2_alloc_in s.mem _ _ _ (Or.inr rfl)
        · refine reprFrom_frame s.mem _ 0 xs hXs ?_
          intro j hj1 hj2
          constructor
          · simp only [wrAlloc_size]
          · rw [wrAlloc2_alloc_out s.mem ((totalSize xs : Int) + (sz : Int) - 1)
              (totalSize xs : Int) j (by omega) (by omega)]
        · have hYsA : reprFrom
              (wrAlloc (wrAlloc s.mem ((totalSize xs : Int) + (sz : Int) - 1) 0)
                (totalSize xs : Int) 0)
              ((totalSize xs : Int) + (sz : Int)) ys := by
            refine reprFrom_frame s.mem _ _ ys hYs' ?_
            intro j hj1 hj2
            constructor
            · simp only [wrAlloc_size]
            · rw [wrAlloc2_alloc_out s.mem ((totalSize xs : Int) + (sz : Int) - 1)
                (totalSize xs : Int) j (by omega) (by omega)]
          exact hYsA
      · obtain ⟨bs1, hb1⟩ := hheadS
        exact head_cons_of xs ys bs1 (Blk.mk sz ab) (Blk.mk 4 true) hxs hb1
      · obtain ⟨bs1, hb1⟩ := hlastS
        exact sentinel_last xs ys bs1 (Blk.mk sz ab) (Blk.mk 1 true) hys hb1
      · show totalSize (xs ++ Blk.mk sz false :: ys) < 2 ^ sizeBits
        rw [hToteq2]
        exact htot
      · have hringA : ringOK
            (wrAlloc (wrAlloc s.mem ((totalSize xs : Int) + (sz : Int) - 1) 0)
              (totalSize xs : Int) 0) (n0 :: rest) :=
          ringOK_congr (sameLinks_symm (sameSA_wrAlloc2 s.mem _ _)) hring
        have hins := ring_insert _ n0 (totalSize xs : Int) ((s.mem n0).next_free) rest
          hringA hnodup hnotring (by simp only [wrAlloc_next])
        have hsw := ringOK_swap _ [n0] ((totalSize xs : Int) :: rest) hins
        exact hsw
      · rfl
      · rfl
      · have hpn : (totalSize xs : Int) ∉ rest ++ [n0] := by
          intro hmem
          rcases List.mem_append.mp hmem with hmm | hmm
          · exact hnotring (List.mem_cons_of_mem _ hmm)
          · have hxe : (totalSize xs : Int) = n0 := by simpa using hmm
            exact hnotring (hxe ▸ List.mem_cons_self _ _)
        refine List.nodup_cons.mpr ⟨hpn, ?_⟩
        exact (List.perm_append_comm).nodup_iff.mpr hnodup
      · intro x hx
        rcases List.mem_cons.mp hx with rfl | hx'
        · right
          refine ⟨sz, ?_⟩
          rw [starts_mid_decomp]
          exact List.mem_append_right _ (List.mem_cons_self _ _)
        · have hxns : x ∈ n0 :: rest := by
            rcases List.mem_append.mp hx' with hmm | hmm
            · exact List.mem_cons_of_mem _ hmm
            · have hxe : x = n0 := by simpa using hmm
              exact hxe ▸ List.mem_cons_self _ _
          rcases hsound x hxns with h0 | ⟨q, hq⟩
          · exact Or.inl h0
          · right
            refine ⟨q, ?_⟩
            rw [starts_mid_decomp] at hq ⊢
            rcases List.mem_append.mp hq with hqf | hqm
            · exact List.mem_append_left _ hqf
            · rcases List.mem_cons.mp hqm with he | hqy
              · exfalso
                have hxp : x = (totalSize xs : Int) := congrArg Prod.fst he
                exact hnotring (hxp ▸ hxns)
              · refine List.mem_append_right _ (List.mem_cons_of_mem _ ?_)
                have hqy2 : (x, Blk.mk q false)
                    ∈ starts ((totalSize xs : Int) + (sz : Int)) ys := hqy
                exact hqy2
      · intro p q hpq
        rw [starts_mid_decomp] at hpq
        rcases List.mem_append.mp hpq with hqf | hqm
        · have hb := mem_starts_bounds p (Blk.mk q false) xs 0 hqf hposX
          have hq1 : 1 ≤ q := by
            obtain ⟨u0, v0, hsplit, -⟩ := mem_starts_split p (Blk.mk q false) xs 0 hqf
            refine hposX (Blk.mk q false) ?_
            rw [hsplit]
            exact List.mem_append_right _ (List.mem_cons_self _ _)
          have hb2 : p + (q : Int) ≤ 0 + (totalSize xs : Int) := hb.2
          have hold : (p, Blk.mk q false) ∈ starts 0 (xs ++ Blk.mk sz ab :: ys) := by
            rw [starts_mid_decomp]
            exact List.mem_append_left _ hqf
          rcases hcompl p q hold with he | hpns
          · exfalso
            omega
          · exact hnssub p hpns
        · rcases List.mem_cons.mp hqm with he | hqy
          · have hpe : p = (totalSize xs : Int) := congrArg Prod.fst he
            exact hpe ▸ List.mem_cons_self _ _
          · have hqy2 : (p, Blk.mk q false)
                ∈ starts ((totalSize xs : Int) + (sz : Int)) ys := hqy
            have hb := mem_starts_bounds p (Blk.mk q false) ys _ hqy2 hposY
            have hb1 : (totalSize xs : Int) + (sz : Int) ≤ p := hb.1
            have hold : (p, Blk.mk q false) ∈ starts 0 (xs ++ Blk.mk sz ab :: ys) := by
              rw [starts_mid_decomp]
              refine List.mem_append_right _ (List.mem_cons_of_mem _ ?_)
              exact hqy2
            rcases hcompl p q hold with he | hpns
            · exfalso
              omega
            · exact hnssub p hpns
      · exact hnssub 0 hzero
      · exact hnadjx
      · intro K hK
        rw [hgl] at hK
        have hKL : K = L := by
          injection hK with h1
          exact h1.symm
        exact hKL ▸ hLb
  | false =>
    have hcond0 : ((wrAlloc (wrAlloc s.mem ((totalSize xs : Int) + (sz : Int) - 1) 0)
        (totalSize xs : Int) 0) ((totalSize xs : Int) - 1)).alloc_or_not = 0 := by
      rw [hcondval, hLb]
      simp
    have hxs2ne : xs2 ≠ [] := by
      intro he
      obtain ⟨bs1, hb1⟩ := hheadS
      obtain ⟨xs1, hx1⟩ := head_cons_of xs ys bs1 (Blk.mk sz ab) (Blk.mk 4 true) hxs hb1
      rw [hxsdec, he, List.nil_append] at hx1
      injection hx1 with h1 h2
      rw [h1] at hLb
      simp at hLb
    have hfront4B : ∃ t, xs2 = Blk.mk 4 true :: t := by
      obtain ⟨bs1, hb1⟩ := hheadS
      obtain ⟨xs1, hx1⟩ := head_cons_of xs ys bs1 (Blk.mk sz ab) (Blk.mk 4 true) hxs hb1
      cases xs2 with
      | nil => exact absurd rfl hxs2ne
      | cons c t =>
        rw [hxsdec, List.cons_append] at hx1
        injection hx1 with h1 _
        exact ⟨t, by rw [h1]⟩
    have hnadjx2 : noAdjFree xs2 := by
      have h2 := hnadjx
      rw [hxsdec] at h2
      exact noAdjFree_left _ _ h2
    have hlastF2 : ∀ K, xs2.getLast? = some K → K.balloc = true := by
      have h2 := hnadjx
      rw [hxsdec] at h2
      unfold noAdjFree at h2
      have h3 := (List.chain'_append.mp h2).2.2
      intro K hK
      rcases h3 K hK L rfl with hx | hx
      · exact hx
      · rw [hLb] at hx
        simp at hx
    have hL1' : 1 ≤ L.bsize := hL1
    have hheadL_sz : (s.mem ((totalSize xs : Int) - (L.bsize : Int))).size_of_blk
        = L.bsize := by
      rw [show (totalSize xs : Int) - (L.bsize : Int) = (totalSize xs2 : Int) by omega]
      exact hL2
    have hkey : rfbtl_lower s (totalSize xs : Int)
        = ((totalSize xs : Int) - (L.bsize : Int), sz + L.bsize,
           wrSize (wrSize
               (wrAlloc (wrAlloc s.mem ((totalSize xs : Int) + (sz : Int) - 1) 0)
                 (totalSize xs : Int) 0)
               ((totalSize xs : Int) - (L.bsize : Int)
                 + ((sz + L.bsize : Nat) : Int) - 1) (sz + L.bsize))
             ((totalSize xs : Int) - (L.bsize : Int)) (sz + L.bsize)) := by
      rw [rfbtl_lower]
      simp only [hhd]
      rw [if_pos hcond0]
      simp only [wrAlloc_size]
      rw [hfootL_sz, hheadL_sz]
    have hLeq : L = Blk.mk L.bsize false := by
      cases L with
      | mk a b => exact congrArg (Blk.mk a) hLb
    have hSold : starts 0 (xs ++ Blk.mk sz ab :: ys)
        = starts 0 xs ++ ((totalSize xs : Int), Blk.mk sz ab)
          :: starts ((totalSize xs : Int) + (sz : Int)) ys :=
      starts_mid_decomp xs ys (Blk.mk sz ab)
    have hSxs : starts 0 xs = starts 0 xs2 ++ [((totalSize xs2 : Int), L)] := by
      rw [hxsdec, starts_append, zero_add]
      rfl
    have hSnew : starts 0 (xs2 ++ Blk.mk (sz + L.bsize) false :: ys)
        = starts 0 xs2 ++ ((totalSize xs2 : Int), Blk.mk (sz + L.bsize) false)
          :: starts ((totalSize xs2 : Int) + ((sz + L.bsize : Nat) : Int)) ys :=
      starts_mid_decomp xs2 ys (Blk.mk (sz + L.bsize) false)
    have hofB : (totalSize xs2 : Int) + ((sz + L.bsize : Nat) : Int)
        = (totalSize xs : Int) + (sz : Int) := by
      push_cast
      omega
    have hbvstart : ((totalSize xs2 : Int), Blk.mk L.bsize false)
        ∈ starts 0 (xs ++ Blk.mk sz ab :: ys) := by
      rw [hSold]
      refine List.mem_append_left _ ?_
      rw [hSxs, ← hLeq]
      exact List.mem_append_right _ (List.mem_cons_self _ _)
    have hbvmem : (totalSize xs2 : Int) ∈ n0 :: rest := by
      rcases hcompl _ L.bsize hbvstart with he | hm
      · exfalso
        omega
      · exact hm
    obtain ⟨u, v, huv⟩ := List.append_of_mem hbvmem
    have hringrot : ringOK s.mem (((totalSize xs2 : Int) :: v) ++ u) := by
      refine ringOK_swap s.mem u ((totalSize xs2 : Int) :: v) ?_
      rw [← huv]
      exact hring
    have hnodrot : (((totalSize xs2 : Int) :: v) ++ u).Nodup := by
      refine (List.perm_append_comm).nodup_iff.mpr ?_
      rw [← huv]
      exact hnodup
    have hToteqB : totalSize (xs2 ++ Blk.mk (sz + L.bsize) false :: ys)
        = totalSize (xs ++ Blk.mk sz ab :: ys) := by
      rw [totalSize_append, totalSize_append, totalSize_cons, totalSize_cons]
      show totalSize xs2 + (sz + L.bsize + totalSize ys)
        = totalSize xs + (sz + totalSize ys)
      omega
    have hltB : sz + L.bsize < 2 ^ sizeBits := by
      have e : totalSize (xs ++ Blk.mk sz ab :: ys)
          = totalSize xs + (sz + totalSize ys) := by
        rw [totalSize_append, totalSize_cons]
      omega
    have hposX2 : ∀ b ∈ xs2, 1 ≤ b.bsize := by
      intro b hb
      refine hposX b ?_
      rw [hxsdec]
      exact List.mem_append_left _ hb
    have hnssubB : ∀ z : Int, z ∈ n0 :: rest
        → z ∈ (totalSize xs2 : Int) :: (v ++ u) := by
      intro z hz
      rw [huv] at hz
      rcases List.mem_append.mp hz with hmm | hmm
      · exact List.mem_cons_of_mem _ (List.mem_append_right _ hmm)
      · rcases List.mem_cons.mp hmm with rfl | hmm2
        · exact List.mem_cons_self _ _
        · exact List.mem_cons_of_mem _ (List.mem_append_left _ hmm2)
    refine ⟨xs2, sz + L.bsize, (totalSize xs2 : Int) :: (v ++ u), ?_, ?_,
      Nat.le_add_right _ _, ?_⟩
    · rw [hkey]
      show (totalSize xs : Int) - (L.bsize : Int) = (totalSize xs2 : Int)
      omega
    · rw [hkey]
    · rw [hkey]
      rw [show (totalSize xs : Int) - (L.bsize : Int) = (totalSize xs2 : Int) by omega]
      refine ⟨?_, ?_, hfront4B, ?_, ?_, le_trans hsz1 (Nat.le_add_right _ _),
        ?_, ?_, ?_, ?_, ?_, ?_, ?_, hnadjx2, hnadjy, hlastF2⟩
      · show s.heapBytes = sizeofHF * totalSize (xs2 ++ Blk.mk (sz + L.bsize) false :: ys)
        rw [hToteqB]
        exact htile
      · refine repr_block_build _ xs2 ys (Blk.mk (sz + L.bsize) false)
          (le_trans hsz1 (Nat.le_add_right _ _)) ?_ ?_ ?_ ?_ ?_ ?_
        · rw [wrSize_size_self]
          show (sz + L.bsize) % 2 ^ sizeBits = sz + L.bsize
          exact Nat.mod_eq_of_lt hltB
        · rw [wrSize_alloc, wrSize_alloc,
            wrAlloc2_alloc_out s.mem ((totalSize xs : Int) + (sz : Int) - 1)
              (totalSize xs : Int) (totalSize xs2 : Int) (by omega) (by omega)]
          rw [hL3, hLb]
        · have hne1 : (totalSize xs2 : Int) + ((sz + L.bsize : Nat) : Int) - 1
              ≠ (totalSize xs2 : Int) := by
            push_cast
            omega
          rw [wrSize_size_ne _ _ _ hne1, wrSize_size_self]
          show (sz + L.bsize) % 2 ^ sizeBits = sz + L.bsize
          exact Nat.mod_eq_of_lt hltB
        · rw [wrSize_alloc, wrSize_alloc]
          refine Eq.trans (wrAlloc2_alloc_in s.mem
            ((totalSize xs : Int) + (sz : Int) - 1) (totalSize xs : Int)
            ((totalSize xs2 : Int) + ((sz + L.bsize : Nat) : Int) - 1)
            (Or.inr (by push_cast; omega))) ?_
          rfl
        · refine reprFrom_frame s.mem _ 0 xs2 hXs2 ?_
          intro j hj1 hj2
          have hjne1 : j ≠ (totalSize xs2 : Int) := by omega
          have hjne2 : j ≠ (totalSize xs2 : Int) + ((sz + L.bsize : Nat) : Int) - 1 := by
            push_cast
            omega
          constructor
          · rw [wrSize_size_ne _ _ _ hjne1, wrSize_size_ne _ _ _ hjne2]
            simp only [wrAlloc_size]
          · rw [wrSize_alloc, wrSize_alloc,
              wrAlloc2_alloc_out s.mem ((totalSize xs : Int) + (sz : Int) - 1)
                (totalSize xs : Int) j (by omega) (by omega)]
        · have hYs2 : reprFrom s.mem
              ((totalSize xs2 : Int) + ((sz + L.bsize : Nat) : Int)) ys := by
            rw [hofB]
            exact hYs'
          refine reprFrom_frame s.mem _ _ ys hYs2 ?_
          intro j hj1 hj2
          have hj1' : (totalSize xs2 : Int) + (sz : Int) + (L.bsize : Int) ≤ j := by
            push_cast at hj1
            omega
          have hjne1 : j ≠ (totalSize xs2 : Int) := by omega
          have hjne2 : j ≠ (totalSize xs2 : Int) + ((sz + L.bsize : Nat) : Int) - 1 := by
            push_cast
            omega
          constructor
          · rw [wrSize_size_ne _ _ _ hjne1, wrSize_size_ne _ _ _ hjne2]
            simp only [wrAlloc_size]
          · rw [wrSize_alloc, wrSize_alloc,
              wrAlloc2_alloc_out s.mem ((totalSize xs : Int) + (sz : Int) - 1)
                (totalSize xs : Int) j (by omega) (by omega)]
      · obtain ⟨bs1, hb1⟩ := hlastS
        exact sentinel_last xs ys bs1 (Blk.mk sz ab) (Blk.mk 1 true) hys hb1
      · show totalSize (xs2 ++ Blk.mk (sz + L.bsize) false :: ys) < 2 ^ sizeBits
        rw [hToteqB]
        exact htot
      · refine ringOK_congr (sameLinks_symm (sameLinks_trans (sameLinks_wrSize _ _ _)
          (sameLinks_trans (sameLinks_wrSize _ _ _) (sameSA_wrAlloc2 s.mem _ _)))) ?_
        exact hringrot
      · rfl
      · rfl
      · exact hnodrot
      · intro x hx
        rcases List.mem_cons.mp hx with rfl | hx'
        · right
          refine ⟨sz + L.bsize, ?_⟩
          rw [hSnew]
          exact List.mem_append_right _ (List.mem_cons_self _ _)
        · have hxns : x ∈ n0 :: rest := by
            rw [huv]
            rcases List.mem_append.mp hx' with hmm | hmm
            · exact List.mem_append_right _ (List.mem_cons_of_mem _ hmm)
            · exact List.mem_append_left _ hmm
          rcases hsound x hxns with h0 | ⟨q, hq⟩
          · exact Or.inl h0
          · right
            rw [hSold] at hq
            rcases List.mem_append.mp hq with hqf | hqm
            · rw [hSxs] at hqf
              rcases List.mem_append.mp hqf with hq2 | hq2
              · exact ⟨q, by rw [hSnew]; exact List.mem_append_left _ hq2⟩
              · have hpr : (x, Blk.mk q false) = ((totalSize xs2 : Int), L) := by
                  simpa using hq2
                have hxe : x = (totalSize xs2 : Int) := congrArg Prod.fst hpr
                subst hxe
                exact ⟨sz + L.bsize, by
                  rw [hSnew]
                  exact List.mem_append_right _ (List.mem_cons_self _ _)⟩
            · rcases List.mem_cons.mp hqm with he | hqy
              · exfalso
                have hxe : x = (totalSize xs : Int) := congrArg Prod.fst he
                exact hnotring (hxe ▸ hxns)
              · refine ⟨q, ?_⟩
                rw [hSnew]
                refine List.mem_append_right _ (List.mem_cons_of_mem _ ?_)
                rw [hofB]
                exact hqy
      · intro p q hpq
        rw [hSnew] at hpq
        rcases List.mem_append.mp hpq with hqf | hqm
        · have hb := mem_starts_bounds p (Blk.mk q false) xs2 0 hqf hposX2
          have hq1 : 1 ≤ q := by
            obtain ⟨u0, v0, hsplit, -⟩ := mem_starts_split p (Blk.mk q false) xs2 0 hqf
            refine hposX2 (Blk.mk q false) ?_
            rw [hsplit]
            exact List.mem_append_right _ (List.mem_cons_self _ _)
          have hb2 : p + (q : Int) ≤ 0 + (totalSize xs2 : Int) := hb.2
          have hold : (p, Blk.mk q false) ∈ starts 0 (xs ++ Blk.mk sz ab :: ys) := by
            rw [hSold]
            refine List.mem_append_left _ ?_
            rw [hSxs]
            exact List.mem_append_left _ hqf
          rcases hcompl p q hold with he | hpns
          · exfalso
            omega
          · exact hnssubB p hpns
        · rcases List.mem_cons.mp hqm with he | hqy
          · have hpe : p = (totalSize xs2 : Int) := congrArg Prod.fst he
            exact hpe ▸ List.mem_cons_self _ _
          · have hqy2 : (p, Blk.mk q false)
                ∈ starts ((totalSize xs : Int) + (sz : Int)) ys := by
              rw [← hofB]
              exact hqy
            have hb := mem_starts_bounds p (Blk.mk q false) ys _ hqy2 hposY
            have hb1 : (totalSize xs : Int) + (sz : Int) ≤ p := hb.1
            have hold : (p, Blk.mk q false) ∈ starts 0 (xs ++ Blk.mk sz ab :: ys) := by
              rw [hSold]
              refine List.mem_append_right _ (List.mem_cons_of_mem _ ?_)
              exact hqy2
            rcases hcompl p q hold with he | hpns
            · exfalso
              omega
            · exact hnssubB p hpns
      · exact hnssubB 0 hzero

/-! ## `returnfreeblocktolist` preserves the invariant; establishment; adjacency reading -/

theorem rfbtl_preserves (s : MMState) (xs ys : List Blk) (sz : Nat) (ab : Bool)
    (ns : List Int)
    (htile : s.heapBytes = sizeofHF * totalSize (xs ++ Blk.mk sz ab :: ys))
    (hrepr : reprFrom s.mem 0 (xs ++ Blk.mk sz ab :: ys))
    (hheadS : ∃ bs1, xs ++ Blk.mk sz ab :: ys = Blk.mk 4 true :: bs1)
    (hlastS : ∃ bs1, xs ++ Blk.mk sz ab :: ys = bs1 ++ [Blk.mk 1 true])
    (htot : totalSize (xs ++ Blk.mk sz ab :: ys) < 2 ^ sizeBits)
    (hring : ringOK s.mem ns)
    (hanchor : s.freelist = ns.head?)
    (hnodup : ns.Nodup)
    (hsound : ∀ x ∈ ns, x = 0
      ∨ ∃ q, (x, Blk.mk q false) ∈ starts 0 (xs ++ Blk.mk sz ab :: ys))
    (hcompl : ∀ p q, (p, Blk.mk q false) ∈ starts 0 (xs ++ Blk.mk sz ab :: ys) →
      p = (totalSize xs : Int) ∨ p ∈ ns)
    (hzero : (0 : Int) ∈ ns)
    (hxs : xs ≠ []) (hys : ys ≠ [])
    (hnadjx : noAdjFree xs) (hnadjy : noAdjFree ys)
    (hnotring : (totalSize xs : Int) ∉ ns) :
    ∃ bs' ns' bv msz,
      Inv (returnfreeblocktolist s (totalSize xs : Int)) bs' ns'
      ∧ (returnfreeblocktolist s (totalSize xs : Int)).freelist = some bv
      ∧ (bv, Blk.mk msz false) ∈ starts 0 bs'
      ∧ sz ≤ msz := by
  obtain ⟨front, hc, ns2, h1, h2, h3, hmid⟩ :=
    rfbtl_lower_preserves s xs ys sz ab ns htile hrepr hheadS hlastS htot hring
      hanchor hnodup hsound hcompl hzero hxs hys hnadjx hnadjy hnotring
  have hrw := returnfreeblocktolist_eq s (totalSize xs : Int)
  rw [h1, h2] at hrw
  obtain ⟨bs', ns', msz, hInv, hfl, hstart, hle⟩ :=
    rfbtl_upper_preserves _ front ys hc ns2 hmid
  refine ⟨bs', ns', (totalSize front : Int), msz, ?_, ?_, hstart, le_trans h3 hle⟩
  · rw [hrw]
    exact hInv
  · rw [hrw]
    exact hfl

theorem restart_establishes (s : MMState) (h0 : s.heapBytes = 0)
    (hlim : (blocks + 1) * sizeofHF ≤ s.limitBytes) :
    Inv (restart s) [Blk.mk 4 true, Blk.mk 1 true] [0] := by
  have hsb : mem_sbrk s ((blocks + 1) * sizeofHF)
      = ({ s with heapBytes := s.heapBytes + (blocks + 1) * sizeofHF },
         heapBase + (s.heapBytes : Int)) := by
    rw [mem_sbrk, if_pos (by omega)]
  rw [restart, hsb, h0]
  show Inv
    { mem := wrSize (wrAlloc (wrPrev (wrNext (wrAlloc (wrAlloc
            (wrSize (wrSize s.mem 3 4) 0 4) 3 1) 0 1) 0 0) 0 0) 4 1) 4 1,
      heapBytes := 120,
      limitBytes := s.limitBytes,
      freelist := some 0,
      errno := s.errno }
    [Blk.mk 4 true, Blk.mk 1 true] [0]
  refine ⟨rfl, ?_, ⟨[Blk.mk 1 true], rfl⟩, ⟨[Blk.mk 4 true], rfl⟩, by decide,
    ?_, rfl, List.nodup_singleton 0, ?_, ?_, List.mem_singleton_self 0, ?_⟩
  · exact ⟨by decide, rfl, rfl, rfl, rfl, by decide, rfl, rfl, rfl, rfl, trivial⟩
  · refine ⟨by simp, ?_⟩
    rw [pathOK_eq]
    show List.Chain' _ [(0 : Int), 0]
    exact List.chain'_cons.mpr ⟨⟨rfl, rfl⟩, List.chain'_singleton _⟩
  · intro x hx
    exact Or.inl (by simpa using hx)
  · intro p q hpq
    simp [starts] at hpq
  · show noAdjFree [Blk.mk 4 true, Blk.mk 1 true]
    unfold noAdjFree
    exact List.chain'_cons.mpr ⟨Or.inl rfl, List.chain'_singleton _⟩

theorem inv_memNoAdjFree (s : MMState) (bs : List Blk) (ns : List Int)
    (h : Inv s bs ns) : memNoAdjFree s bs := by
  obtain ⟨htile, hrepr, hhead, hlast, htot, hring, hanchor, hnodup, hsound,
    hcomplete, hzero, hnoadj⟩ := h
  intro p q hpq
  obtain ⟨u, v, huv, hp⟩ := mem_starts_split p (Blk.mk q false) bs 0 hpq
  rw [zero_add] at hp
  subst hp
  have hune : u ≠ [] := by
    intro he
    subst he
    obtain ⟨bs1, hb1⟩ := hhead
    rw [List.nil_append] at huv
    rw [huv] at hb1
    injection hb1 with h1
    exact absurd (congrArg Blk.balloc h1) (by simp)
  have hvne : v ≠ [] := by
    intro he
    subst he
    obtain ⟨bs1, hb1⟩ := hlast
    rw [huv] at hb1
    have hgl : (u ++ [Blk.mk q false]).getLast? = some (Blk.mk 1 true) := by
      rw [hb1]
      exact List.getLast?_concat _
    rw [List.getLast?_concat] at hgl
    injection hgl with h1
    exact absurd (congrArg Blk.balloc h1) (by simp)
  obtain ⟨u2, K, hudec⟩ : ∃ u2 K, u = u2 ++ [K] :=
    ⟨u.dropLast, u.getLast hune, (List.dropLast_append_getLast hune).symm⟩
  cases v with
  | nil => exact absurd rfl hvne
  | cons V v' =>
  rw [huv] at hrepr hnoadj
  have hKal : K.balloc = true := by
    unfold noAdjFree at hnoadj
    have h2 : noAdjFree u := hnoadj.left_of_append
    have h3 := (List.chain'_append.mp hnoadj).2.2
    rcases h3 K (by rw [hudec]; exact List.getLast?_concat _) (Blk.mk q false) rfl
      with hx | hx
    · exact hx
    · exact absurd hx (by simp)
  have hVal : V.balloc = true := by
    unfold noAdjFree at hnoadj
    have h3 := (List.chain'_append.mp hnoadj).1
    have h4 := List.chain'_append.mp hnoadj
    have h5 := (List.chain'_cons'.mp h4.2.1).1 V rfl
    rcases h5 with hx | hx
    · exact absurd hx (by simp)
    · exact hx
  constructor
  · -- predecessor footer at p - 1 is K's footer
    have hrepr2 : reprFrom s.mem 0 (u2 ++ K :: (Blk.mk q false :: V :: v')) := by
      rw [show u2 ++ K :: (Blk.mk q false :: V :: v')
          = (u2 ++ [K]) ++ Blk.mk q false :: V :: v' by simp, ← hudec]
      exact hrepr
    obtain ⟨hK1, -, -, hK4, hK5, -, -⟩ :=
      repr_block_cells s.mem u2 (Blk.mk q false :: V :: v') K hrepr2
    have hpos : (totalSize u2 : Int) + (K.bsize : Int) - 1 = (totalSize u : Int) - 1 := by
      have : totalSize u = totalSize u2 + K.bsize := by
        rw [hudec, totalSize_append, totalSize_cons, totalSize_nil]
        omega
      omega
    rw [hpos, hKal] at hK5
    exact hK5
  · -- successor header at p + q is V's header
    have hassoc : u ++ Blk.mk q false :: V :: v'
        = (u ++ [Blk.mk q false]) ++ V :: v' := by simp
    have hrepr3 : reprFrom s.mem 0 ((u ++ [Blk.mk q false]) ++ V :: v') := by
      rw [← hassoc]
      exact hrepr
    obtain ⟨-, -, hV3, -, -, -, -⟩ :=
      repr_block_cells s.mem (u ++ [Blk.mk q false]) v' V hrepr3
    have hpos2 : (totalSize (u ++ [Blk.mk q false]) : Int)
        = (totalSize u : Int) + (q : Int) := by
      rw [totalSize_append, totalSize_cons, totalSize_nil]
      push_cast
      omega
    rw [hpos2, hVal] at hV3
    exact hV3

/-- C3: refuted — the code does not maintain the claimed coalescing
invariant ("after every public call, no two physically adjacent free
blocks exist; every free block's physical predecessor footer and
successor header are marked allocated").  The split paths of both
placement strategies write the remainder's footer `size_of_blk` but never
its `alloc_or_not` bit, so that footer keeps whatever the freshly grown
(indeterminate) memory held.  After the public-call sequence `mm_init`,
`mm_malloc(1)`, `mm_free` of the returned payload pointer 13728, the
arena holds a free block of 167 units at unit 4 and a free block of 4
units at unit 171 = 4 + 167: physically adjacent, both on the free list
(4 and 171 are mutually linked and 171 is the anchor), and the free block
at unit 4 has its successor header marked free, because the stale footer
at unit 170 (allocated bit still 1) made `returnfreeblocktolist` skip the
merge. -/
theorem c3_split_leaves_adjacent_free_blocks :
    c3m.2 = some 13728
    ∧ c3run.freelist = some 171
    ∧ (c3run.mem 4).alloc_or_not = 0
    ∧ (c3run.mem 4).size_of_blk = 167
    ∧ (c3run.mem 171).alloc_or_not = 0
    ∧ (c3run.mem 171).size_of_blk = 4
    ∧ (c3run.mem 4).next_free = 171
    ∧ (c3run.mem 171).previous_free = 4
    ∧ (c3run.mem 170).alloc_or_not = 1 := by
  decide

/-! ## Remaining claim theorems and witnesses -/

/-- C1: the spec requires that after every public call every block in the
arena carries agreeing header and footer tags.  The code violates this
for huge requests: `mm_malloc (2 ^ 64 - 24)` reaches `increaseheapsize`,
where `conv_bytes` wraps the `size_t` byte count to 32; the provider
grants 32 bytes and the code then overwrites the old trailing sentinel
(unit 4) with the wrapped 31-bit block size 715827884 and a cleared
allocated bit, so the 6-unit arena no longer tiles into boundary-tagged
blocks at all — `hfAgree` held before the call and fails after it, while
the call itself returns `NULL` with `errno = ENOMEM`. -/
theorem c1_malloc_overflow_destroys_block_structure :
    hfAgree c1pre = true ∧ hfAgree c1run.1 = false ∧ c1run.2 = none
      ∧ c1run.1.errno = ENOMEM
      ∧ (c1run.1.mem 4).size_of_blk = 715827884 ∧ (c1run.1.mem 4).alloc_or_not = 0
      ∧ c1run.1.heapBytes / sizeofHF = 6 := by decide

/-- C5: the fast-path gate of `allocatedblock` parses as
`allocated & ((sizeof(max_align_t) - 1) == 0)` because `==` binds tighter
than `&`, so it is constantly false and the fast path never accepts any
pointer — in particular not the aligned payload pointer `addrOfUnit 171`
of state `sW`, although its candidate header satisfies every acceptance
condition the claim lists (allocated, size at least 4, header and footer
agreeing on size and on the allocated bit). -/
theorem c5_fast_path_gate_always_false :
    (∀ p : Int, fast_path_guard p = false)
    ∧ ((sW.mem 170).alloc_or_not = 1
        ∧ blocks ≤ (sW.mem 170).size_of_blk
        ∧ (sW.mem 170).size_of_blk
            = (sW.mem (170 + ((sW.mem 170).size_of_blk : Int) - 1)).size_of_blk
        ∧ (sW.mem 170).alloc_or_not
            = (sW.mem (170 + ((sW.mem 170).size_of_blk : Int) - 1)).alloc_or_not
        ∧ fast_path_guard (addrOfUnit 171) = false) :=
  ⟨fast_path_guard_false, by decide⟩

/-- C6: the sentinels' allocated bits are not immortal.  Freeing a
pointer into the interior of the leading sentinel (one HF unit above the
heap base) passes the bounds checks, is resolved by the slow-path walk to
the leading sentinel itself (whose allocated bit is set), and
`returnfreeblocktolist` then clears the sentinel's header and footer
allocated bits — no error is reported. -/
theorem c6_free_inside_sentinel_clears_sentinel :
    (sBig.mem 0).alloc_or_not = 1 ∧ (sBig.mem 3).alloc_or_not = 1
      ∧ (c6run.mem 0).alloc_or_not = 0 ∧ (c6run.mem 3).alloc_or_not = 0
      ∧ c6run.errno = 0 := by decide

/-- C7 (counterexample): in the well-formed arena `cxS` the free block at
unit 38 (size 6) fits the request of 6 units and is strictly smaller
than the free block at unit 13 (size 20), yet best-fit placement serves
unit 27 by splitting block 13 — the anchor block (size 4) does not fit,
so no candidate ever beats it in the scan and the search degenerates to
first fit; the smallest fitting block 38 is left untouched. -/
theorem c7_best_fit_picks_nonsmallest :
    (cxS.mem 38).alloc_or_not = 0 ∧ 6 ≤ (cxS.mem 38).size_of_blk
      ∧ (cxS.mem 13).alloc_or_not = 0 ∧ 6 ≤ (cxS.mem 13).size_of_blk
      ∧ (cxS.mem 38).size_of_blk < (cxS.mem 13).size_of_blk
      ∧ (pick_free_block_from_list_best_fit 50 cxS 6).2 = some 27
      ∧ ((pick_free_block_from_list_best_fit 50 cxS 6).1.mem 13).size_of_blk = 14
      ∧ ((pick_free_block_from_list_best_fit 50 cxS 6).1.mem 38) = cxS.mem 38 := by decide

/-- C9: from a fresh arena, `a = allocate 64; b = allocate 64; release a;
c = allocate 64` yields `c = a` (both payloads at address 13704): the
release inserts `a`'s block after the anchor and moves the anchor to it
(the anchor is unit 170 afterwards), so the next allocation reuses it. -/
theorem c9_lifo_reuse :
    c9a.2 = some 13704 ∧ c9b.2 = some 13584 ∧ c9c.2 = some 13704
      ∧ c9f.freelist = some 170 := by decide

/-- C10: `mm_malloc 0` rounds the request to the minimum block size of 4
HF units (`mallocChunks 0 = blocks`) and, with memory available, returns
a non-null payload pointer into an allocated block of exactly 4 units. -/
theorem c10_malloc_zero_minimum_block :
    mallocChunks 0 = blocks ∧ c10run.2 = some 13728
      ∧ (c10run.1.mem (unitOfAddr 13728 - 1)).size_of_blk = 4
      ∧ (c10run.1.mem (unitOfAddr 13728 - 1)).alloc_or_not = 1 := by decide

/-- Witness for C2 at the concrete state `cxS`, block 13, request 6. -/
theorem c2_split_policy_witness :
    6 + blocks ≤ (cxS.mem 13).size_of_blk
      ∧ (serve_block cxS 13 6).2 = 13 + ((cxS.mem 13).size_of_blk : Int) - ((6 : Nat) : Int)
      ∧ ((serve_block cxS 13 6).1.mem 13).size_of_blk = (cxS.mem 13).size_of_blk - 6 := by
  have h := (c2_split_policy cxS 13 6 (by decide) (by decide) (by decide) (by decide)).2
    (by decide)
  exact ⟨by decide, h.1, h.2.1⟩

/-- Witness for C4: refusal on a full 120-byte arena (conclusion one),
success from a fitting free block (conclusion two), success through
granted growth (conclusion three). -/
theorem c4_malloc_oom_and_success_witness :
    mm_malloc 10 s120 1 = ({ s120 with errno := ENOMEM }, none)
      ∧ (mm_malloc 10 sA 64).2.isSome
      ∧ (mm_malloc 10 sBig 1).2.isSome := by
  refine ⟨?_, ?_, ?_⟩
  · exact (c4_malloc_oom_and_success s120 1 0 [] 10 (by decide)
      (by simp only [chainNext]; decide) (by decide) (by decide)).1 (by decide) (by decide)
  · exact (c4_malloc_oom_and_success sA 64 4 [0] 10 (by decide)
      (by simp only [chainNext]; decide) (by decide) (by decide)).2.1 (by decide)
  · exact (c4_malloc_oom_and_success sBig 1 0 [] 10 (by decide)
      (by simp only [chainNext]; decide) (by decide) (by decide)).2.2
      (by decide) (by decide) (by decide) (by decide)

/-- Witness for C7 at the concrete state `cxS` with the ring
`4 :: [13, 38, 0]` and request 6: no fitting free block is smaller than
the anchor block, so placement is the first-fit loop from the anchor. -/
theorem c7_best_fit_scan_behavior_witness :
    pick_free_block_from_list_best_fit 50 cxS 6 = ff_loop 50 cxS 4 6 :=
  (c7_best_fit_scan_behavior cxS 6 4 [13, 38, 0] 50 (by decide)
    (by simp only [chainNext]; decide) (by decide) (by decide)).2 (by decide)

/-- Witness for C8: in the full arena `sW`, growing the 5-unit block at
unit 170 (payload 13704) to 4000 bytes fails and leaves the state
untouched. -/
theorem c8_realloc_failure_undisturbed_witness :
    mm_realloc 50 sW 13704 4000 = (sW, none)
      ∧ ((mm_realloc 50 sW 13704 4000).1.mem 170).alloc_or_not = 1 := by
  have h := c8_realloc_failure_undisturbed sW 13704 4000 170 4 [0] 50
    (by decide) (by decide) (by decide) (by decide)
    (by simp only [chainNext]; decide) (by decide) (by decide) (by decide) (by decide)
  exact ⟨h.1, h.2.1⟩

end MMHeap
